import Mathlib

/-!
# Verification of the crc64fast CRC-64-ECMA (CRC-64-XZ) engine

This file gives a shallow embedding of the crc64fast library: the
table-driven scalar path, the carryless-multiplication (CLMUL) SIMD path
with its 128-byte folding loop and Barrett reduction, the runtime
dispatcher and the `Digest` facade.  All machine integers are modelled as
`Nat` with explicit truncation (`% 2 ^ 64`, `% 2 ^ 128`) where the Rust
code relies on fixed-width arithmetic.

The development proves that every update path computes the reference
CRC-64-ECMA checksum, that the SIMD and scalar paths agree bit-exactly,
and settles a number of smaller structural claims about the code.

The mathematical core works with polynomials over GF(2) encoded as
natural numbers: XOR is polynomial addition and `clmul` (carryless
multiplication) is polynomial multiplication.  `polyMod` reduces a
polynomial modulo the CRC generator `Gpoly = x^64 + NPOLY`, and
`pequiv a b` states that `a` and `b` differ by a polynomial multiple of
`Gpoly`.  The CLMUL primitives are proved correct by observing that each
of them is XOR-linear and checking them on the 128 basis vectors by
computation.
-/

set_option maxRecDepth 4000
set_option exponentiation.threshold 2000

/-! ### Carryless multiplication -/

/-- Fueled worker for carryless (GF(2) polynomial) multiplication; the
fuel only bounds the recursion depth, which makes the function reducible
by the kernel. -/
def clmulF : Nat → Nat → Nat → Nat
  | 0, _, _ => 0
  | f + 1, a, b => if a = 0 then 0 else (if a % 2 = 1 then b else 0) ^^^ 2 * clmulF f (a / 2) b

/-- Carryless multiplication of two natural numbers viewed as
polynomials over GF(2). -/
def clmul (a b : Nat) : Nat := clmulF a a b

theorem clmulF_zero (f b : Nat) : clmulF f 0 b = 0 := by
  cases f <;> simp [clmulF]

theorem clmulF_mono : ∀ f g a b : Nat, a ≤ f → a ≤ g → clmulF f a b = clmulF g a b := by
  intro f
  induction f with
  | zero =>
    intro g a b ha _
    interval_cases a
    simp [clmulF_zero]
  | succ f ih =>
    intro g a b ha hg
    rcases Nat.eq_zero_or_pos a with rfl | hpos
    · simp [clmulF_zero]
    · obtain ⟨g', rfl⟩ : ∃ g', g = g' + 1 := ⟨g - 1, by omega⟩
      have h1 : a / 2 ≤ f := by omega
      have h2 : a / 2 ≤ g' := by omega
      simp only [clmulF, if_neg (by omega : ¬ a = 0)]
      rw [ih g' (a / 2) b h1 h2]

/-- The defining recurrence of `clmul`, independent of the fuel. -/
theorem clmul_eq (a b : Nat) :
    clmul a b = (if a % 2 = 1 then b else 0) ^^^ 2 * clmul (a / 2) b := by
  rcases Nat.eq_zero_or_pos a with rfl | hpos
  · simp [clmul, clmulF_zero]
  · obtain ⟨f, rfl⟩ : ∃ f, a = f + 1 := ⟨a - 1, by omega⟩
    show clmulF (f + 1) (f + 1) b = _
    simp only [clmulF, if_neg (by omega : ¬ f + 1 = 0)]
    rw [clmulF_mono f ((f + 1) / 2) ((f + 1) / 2) b (by omega) (by omega)]
    rfl

theorem clmul_zero_left (b : Nat) : clmul 0 b = 0 := by
  simp [clmul, clmulF_zero]

theorem clmul_zero_right (a : Nat) : clmul a 0 = 0 := by
  induction a using Nat.strong_induction_on with
  | _ a ih =>
    rcases Nat.eq_zero_or_pos a with rfl | hpos
    · exact clmul_zero_left 0
    · rw [clmul_eq, ih (a / 2) (by omega)]
      simp

theorem clmul_two_mul_left (a b : Nat) : clmul (2 * a) b = 2 * clmul a b := by
  rcases Nat.eq_zero_or_pos a with rfl | hpos
  · simp [clmul_zero_left]
  · rw [clmul_eq (2 * a) b]
    have h1 : (2 * a) % 2 = 0 := by omega
    have h2 : (2 * a) / 2 = a := by omega
    simp [h1, h2]

theorem clmul_bit1_left (a b : Nat) : clmul (2 * a + 1) b = b ^^^ 2 * clmul a b := by
  rw [clmul_eq (2 * a + 1) b]
  have h1 : (2 * a + 1) % 2 = 1 := by omega
  have h2 : (2 * a + 1) / 2 = a := by omega
  simp [h1, h2]

theorem clmul_one_left (b : Nat) : clmul 1 b = b := by
  have := clmul_bit1_left 0 b
  simpa [clmul_zero_left] using this

/-- Shifting distributes over XOR. -/
theorem shiftLeft_xor_distrib (x y k : Nat) : (x ^^^ y) <<< k = (x <<< k) ^^^ (y <<< k) := by
  apply Nat.eq_of_testBit_eq
  intro i
  simp only [Nat.testBit_shiftLeft, Nat.testBit_xor]
  rw [Bool.and_xor_distrib_left]

theorem shiftRight_xor_distrib (x y k : Nat) : (x ^^^ y) >>> k = (x >>> k) ^^^ (y >>> k) := by
  apply Nat.eq_of_testBit_eq
  intro i
  simp [Nat.testBit_shiftRight, Nat.testBit_xor]

theorem mod_two_pow_xor_distrib (x y n : Nat) :
    (x ^^^ y) % 2 ^ n = (x % 2 ^ n) ^^^ (y % 2 ^ n) := by
  apply Nat.eq_of_testBit_eq
  intro i
  simp only [Nat.testBit_mod_two_pow, Nat.testBit_xor]
  rw [Bool.and_xor_distrib_left]

theorem two_mul_xor (x y : Nat) : 2 * (x ^^^ y) = 2 * x ^^^ 2 * y := by
  have h := shiftLeft_xor_distrib x y 1
  simpa [Nat.shiftLeft_eq, Nat.mul_comm] using h

theorem xor_left_comm (a b c : Nat) : a ^^^ (b ^^^ c) = b ^^^ (a ^^^ c) := by
  rw [← Nat.xor_assoc, Nat.xor_comm a b, Nat.xor_assoc]

theorem dfalse {p : Prop} [Decidable p] (h : ¬ p) : decide p = false :=
  decide_eq_false_iff_not.mpr h

theorem xor_cancel_left (a b : Nat) : a ^^^ (a ^^^ b) = b := by
  rw [← Nat.xor_assoc, Nat.xor_self, Nat.zero_xor]

theorem ite_xor_distrib (c : Prop) [Decidable c] (x y : Nat) :
    (if c then x ^^^ y else 0) = (if c then x else 0) ^^^ (if c then y else 0) := by
  by_cases h : c <;> simp [h]

theorem ite_two_mul (c : Prop) [Decidable c] (x : Nat) :
    (if c then 2 * x else 0) = 2 * (if c then x else 0) := by
  by_cases h : c <;> simp [h]

theorem clmul_two_mul_right (a b : Nat) : clmul a (2 * b) = 2 * clmul a b := by
  induction a using Nat.strong_induction_on with
  | _ a ih =>
    rcases Nat.eq_zero_or_pos a with rfl | hpos
    · simp [clmul_zero_left]
    · rw [clmul_eq a (2 * b), clmul_eq a b, ih (a / 2) (by omega),
        two_mul_xor, ← ite_two_mul]

/-- For even `2 * x`, adding one is the same as XOR with one. -/
theorem two_mul_add_one_xor (x : Nat) : 2 * x + 1 = 2 * x ^^^ 1 := by
  apply Nat.eq_of_testBit_eq
  intro i
  cases i with
  | zero =>
    simp only [Nat.testBit_zero, Nat.testBit_xor]
    have h1 : (2 * x + 1) % 2 = 1 := by omega
    have h2 : (2 * x) % 2 = 0 := by omega
    simp [h1, h2]
  | succ j =>
    have h2 : (2 * x + 1) / 2 = (2 * x) / 2 := by omega
    simp only [Nat.testBit_add_one, Nat.xor_div_two, h2]
    norm_num

theorem clmul_bit1_right (a b : Nat) : clmul a (2 * b + 1) = a ^^^ 2 * clmul a b := by
  induction a using Nat.strong_induction_on with
  | _ a ih =>
    rcases Nat.eq_zero_or_pos a with rfl | hpos
    · simp [clmul_zero_left]
    · rw [clmul_eq a (2 * b + 1), clmul_eq a b, ih (a / 2) (by omega), two_mul_xor,
        two_mul_xor, ← ite_two_mul]
      have hsplit : (if a % 2 = 1 then 2 * b + 1 else 0) ^^^ 2 * (a / 2) =
          a ^^^ (if a % 2 = 1 then 2 * b else 0) := by
        rcases (by omega : a % 2 = 0 ∨ a % 2 = 1) with h2 | h2
        · have ha : a = 2 * (a / 2) := by omega
          simp [h2, ← ha]
        · have ha : a = 2 * (a / 2) + 1 := by omega
          rw [h2]
          simp only [if_pos rfl, reduceIte]
          conv_rhs => rw [ha]
          rw [two_mul_add_one_xor, two_mul_add_one_xor]
          simp [Nat.xor_assoc, xor_left_comm, Nat.xor_comm]
      calc (if a % 2 = 1 then 2 * b + 1 else 0) ^^^ (2 * (a / 2) ^^^ 2 * (2 * clmul (a / 2) b)) =
          ((if a % 2 = 1 then 2 * b + 1 else 0) ^^^ 2 * (a / 2)) ^^^
            2 * (2 * clmul (a / 2) b) := by rw [Nat.xor_assoc]
      _ = (a ^^^ (if a % 2 = 1 then 2 * b else 0)) ^^^ 2 * (2 * clmul (a / 2) b) := by
          rw [hsplit]
      _ = a ^^^ ((if a % 2 = 1 then 2 * b else 0) ^^^ 2 * (2 * clmul (a / 2) b)) := by
          rw [Nat.xor_assoc]

theorem clmul_comm (a b : Nat) : clmul a b = clmul b a := by
  induction a using Nat.strong_induction_on with
  | _ a ih =>
    rcases Nat.eq_zero_or_pos a with rfl | hpos
    · simp [clmul_zero_left, clmul_zero_right]
    · rcases (by omega : a % 2 = 0 ∨ a % 2 = 1) with h2 | h2
      · have ha : a = 2 * (a / 2) := by omega
        conv_lhs => rw [ha]
        conv_rhs => rw [ha]
        rw [clmul_two_mul_left, clmul_two_mul_right, ih (a / 2) (by omega)]
      · have ha : a = 2 * (a / 2) + 1 := by omega
        conv_lhs => rw [ha]
        conv_rhs => rw [ha]
        rw [clmul_bit1_left, clmul_bit1_right, ih (a / 2) (by omega)]

theorem clmul_xor_right (a b c : Nat) : clmul a (b ^^^ c) = clmul a b ^^^ clmul a c := by
  induction a using Nat.strong_induction_on with
  | _ a ih =>
    rcases Nat.eq_zero_or_pos a with rfl | hpos
    · simp [clmul_zero_left]
    · rw [clmul_eq a (b ^^^ c), clmul_eq a b, clmul_eq a c, ih (a / 2) (by omega),
        ite_xor_distrib, two_mul_xor]
      simp [Nat.xor_assoc, xor_left_comm]

theorem clmul_xor_left (a b c : Nat) : clmul (a ^^^ b) c = clmul a c ^^^ clmul b c := by
  rw [clmul_comm, clmul_xor_right, clmul_comm c a, clmul_comm c b]

theorem clmul_assoc (a b c : Nat) : clmul (clmul a b) c = clmul a (clmul b c) := by
  induction a using Nat.strong_induction_on with
  | _ a ih =>
    rcases Nat.eq_zero_or_pos a with rfl | hpos
    · simp [clmul_zero_left]
    · rcases (by omega : a % 2 = 0 ∨ a % 2 = 1) with h2 | h2
      · have ha : a = 2 * (a / 2) := by omega
        conv_lhs => rw [ha, clmul_two_mul_left, clmul_two_mul_left]
        conv_rhs => rw [ha, clmul_two_mul_left]
        rw [ih (a / 2) (by omega)]
      · have ha : a = 2 * (a / 2) + 1 := by omega
        conv_lhs => rw [ha, clmul_bit1_left, clmul_xor_left, clmul_two_mul_left]
        conv_rhs => rw [ha, clmul_bit1_left]
        rw [ih (a / 2) (by omega)]

theorem clmul_two_pow_left (k b : Nat) : clmul (2 ^ k) b = b <<< k := by
  induction k with
  | zero => simpa [Nat.shiftLeft_eq] using clmul_one_left b
  | succ k ih =>
    have : (2 : Nat) ^ (k + 1) = 2 * 2 ^ k := by ring
    rw [this, clmul_two_mul_left, ih, Nat.shiftLeft_eq, Nat.shiftLeft_eq]
    ring

theorem clmul_two_pow_right (a k : Nat) : clmul a (2 ^ k) = a <<< k := by
  rw [clmul_comm, clmul_two_pow_left]

theorem clmul_shiftLeft_left (q b k : Nat) : clmul (q <<< k) b = (clmul q b) <<< k := by
  rw [← clmul_two_pow_right q k, clmul_assoc, clmul_comm (2 ^ k) b, ← clmul_assoc,
    clmul_two_pow_right]

theorem clmul_lt {a b : Nat} (m n : Nat) (ha : a < 2 ^ m) (hb : b < 2 ^ n) :
    clmul a b < 2 ^ (m + n) := by
  induction m generalizing a with
  | zero =>
    interval_cases a
    simpa [clmul_zero_left] using Nat.pos_pow_of_pos (0 + n) (by norm_num)
  | succ m ih =>
    rw [clmul_eq]
    apply Nat.xor_lt_two_pow
    · have : (2 : Nat) ^ n ≤ 2 ^ (m + 1 + n) := Nat.pow_le_pow_right (by norm_num) (by omega)
      by_cases h : a % 2 = 1 <;> simp [h] <;> omega
    · have hdiv : a / 2 < 2 ^ m := by
        have : (2 : Nat) ^ (m + 1) = 2 * 2 ^ m := by ring
        omega
      have := ih hdiv
      have h2 : (2 : Nat) ^ (m + 1 + n) = 2 * 2 ^ (m + n) := by ring
      omega

/-! ### Bit reversal -/

/-- `bitrev w v` reverses the low `w` bits of `v` (discarding higher bits). -/
def bitrev : Nat → Nat → Nat
  | 0, _ => 0
  | w + 1, v => ((v % 2) <<< w) ||| bitrev w (v / 2)

theorem testBit_bitrev (w v i : Nat) :
    (bitrev w v).testBit i = (decide (i < w) && v.testBit (w - 1 - i)) := by
  induction w generalizing v i with
  | zero => simp [bitrev]
  | succ w ih =>
    simp only [bitrev, Nat.testBit_or, Nat.testBit_shiftLeft, ih]
    rcases Nat.lt_trichotomy i w with h | h | h
    · have h2 : (v / 2).testBit (w - 1 - i) = v.testBit (w - 1 - i + 1) := by
        rw [Nat.testBit_div_two]
      have h3 : w - 1 - i + 1 = w + 1 - 1 - i := by omega
      rw [h2, h3]
      simp [(by omega : ¬ w ≤ i), h, (by omega : i < w + 1)]
    · subst h
      have h2 : (v % 2).testBit 0 = v.testBit 0 := by
        rw [show (2 : Nat) = 2 ^ 1 by norm_num, Nat.testBit_mod_two_pow]
        simp
      have h3 : i + 1 - 1 - i = 0 := by omega
      have h4 : i - i = 0 := by omega
      rw [h3, h4]
      simp [h2, (by omega : ¬ i < i), (by omega : i < i + 1), Nat.le_refl]
    · have h1 : (v % 2).testBit (i - w) = false := by
        apply Nat.testBit_lt_two_pow
        calc v % 2 < 2 ^ 1 := by omega
        _ ≤ 2 ^ (i - w) := Nat.pow_le_pow_right (by norm_num) (by omega)
      rw [h1, dfalse (by omega : ¬ i < w), dfalse (by omega : ¬ i < w + 1)]
      simp

theorem bitrev_lt (w v : Nat) : bitrev w v < 2 ^ w := by
  apply Nat.lt_pow_two_of_testBit
  intro i hi
  rw [testBit_bitrev, dfalse (by omega : ¬ i < w)]
  simp

theorem bitrev_xor (w x y : Nat) : bitrev w (x ^^^ y) = bitrev w x ^^^ bitrev w y := by
  apply Nat.eq_of_testBit_eq
  intro i
  simp only [testBit_bitrev, Nat.testBit_xor]
  cases decide (i < w) <;> simp

theorem bitrev_zero_val (w : Nat) : bitrev w 0 = 0 := by
  apply Nat.eq_of_testBit_eq
  intro i
  simp [testBit_bitrev]

theorem bitrev_bitrev {w v : Nat} (h : v < 2 ^ w) : bitrev w (bitrev w v) = v := by
  apply Nat.eq_of_testBit_eq
  intro i
  rw [testBit_bitrev, testBit_bitrev]
  by_cases hlt : i < w
  · have h2 : w - 1 - (w - 1 - i) = i := by omega
    rw [h2, decide_eq_true hlt, decide_eq_true (by omega : w - 1 - i < w)]
    simp
  · have hvf : v.testBit i = false := by
      apply Nat.testBit_lt_two_pow
      calc v < 2 ^ w := h
      _ ≤ 2 ^ i := Nat.pow_le_pow_right (by norm_num) (by omega)
    rw [hvf, dfalse hlt]
    simp

theorem bitrev_pad {n : Nat} (m : Nat) {b : Nat} (hb : b < 2 ^ n) :
    bitrev (n + m) b = (bitrev n b) <<< m := by
  apply Nat.eq_of_testBit_eq
  intro i
  rw [testBit_bitrev, Nat.testBit_shiftLeft, testBit_bitrev]
  by_cases hlt : i < m
  · have h1 : b.testBit (n + m - 1 - i) = false := by
      apply Nat.testBit_lt_two_pow
      calc b < 2 ^ n := hb
      _ ≤ 2 ^ (n + m - 1 - i) := Nat.pow_le_pow_right (by norm_num) (by omega)
    rw [h1, dfalse (by omega : ¬ m ≤ i)]
    simp
  · by_cases hlt2 : i < n + m
    · have h4 : n + m - 1 - i = n - 1 - (i - m) := by omega
      rw [h4, decide_eq_true hlt2, decide_eq_true (by omega : m ≤ i),
        decide_eq_true (by omega : i - m < n)]
      simp
    · rw [dfalse (by omega : ¬ i < n + m), dfalse (by omega : ¬ i - m < n)]
      simp

theorem bitrev_shrink (w k : Nat) {v : Nat} (hv : v < 2 ^ w) :
    bitrev (w + k) (v <<< k) = bitrev w v := by
  apply Nat.eq_of_testBit_eq
  intro i
  rw [testBit_bitrev, testBit_bitrev, Nat.testBit_shiftLeft]
  by_cases hlt : i < w
  · have h2 : w + k - 1 - i - k = w - 1 - i := by omega
    rw [h2, decide_eq_true hlt, decide_eq_true (by omega : i < w + k),
      decide_eq_true (by omega : k ≤ w + k - 1 - i)]
    simp
  · by_cases hlt2 : i < w + k
    · rw [dfalse (by omega : ¬ k ≤ w + k - 1 - i), dfalse hlt]
      simp
    · rw [dfalse hlt2, dfalse hlt]
      simp

theorem xor_low_high (x n : Nat) : x = (x % 2 ^ n) ^^^ ((x >>> n) <<< n) := by
  apply Nat.eq_of_testBit_eq
  intro i
  simp only [Nat.testBit_xor, Nat.testBit_mod_two_pow, Nat.testBit_shiftLeft,
    Nat.testBit_shiftRight]
  by_cases hlt : i < n
  · rw [decide_eq_true hlt, dfalse (by omega : ¬ n ≤ i)]
    simp
  · have h1 : n + (i - n) = i := by omega
    rw [h1, dfalse hlt, decide_eq_true (by omega : n ≤ i)]
    simp

/-- Splitting a `(n+m)`-bit value into low and high parts commutes with
bit reversal. -/
theorem bitrev_split {x : Nat} (n m : Nat) (hx : x < 2 ^ (n + m)) :
    bitrev (n + m) x = ((bitrev n (x % 2 ^ n)) <<< m) ^^^ bitrev m (x >>> n) := by
  conv_lhs => rw [xor_low_high x n]
  rw [bitrev_xor, bitrev_pad m (Nat.mod_lt _ (Nat.two_pow_pos n) : x % 2 ^ n < 2 ^ n)]
  congr 1
  have hv : x >>> n < 2 ^ m := by
    rw [Nat.shiftRight_eq_div_pow]
    apply Nat.div_lt_of_lt_mul
    calc x < 2 ^ (n + m) := hx
    _ = 2 ^ n * 2 ^ m := by rw [Nat.pow_add]
  have hsh := bitrev_shrink m n hv
  rw [Nat.add_comm m n] at hsh
  exact hsh

/-! ### Fueled log2 and polynomial reduction -/

def log2F : Nat → Nat → Nat
  | 0, _ => 0
  | f + 1, n => if n < 2 then 0 else log2F f (n / 2) + 1

def nlog2 (n : Nat) : Nat := log2F n n

theorem log2F_bound : ∀ f a : Nat, a ≤ f → a < 2 ^ (log2F f a + 1) := by
  intro f
  induction f with
  | zero =>
    intro a ha
    interval_cases a
    simp [log2F]
  | succ f ih =>
    intro a ha
    by_cases h : a < 2
    · simpa [log2F, h] using by omega
    · have hdiv : a / 2 ≤ f := by omega
      have := ih (a / 2) hdiv
      simp only [log2F, h, if_neg, reduceIte]
      have h2 : (2 : Nat) ^ (log2F f (a / 2) + 1 + 1) = 2 * 2 ^ (log2F f (a / 2) + 1) := by
        ring
      omega

theorem nlog2_bound (a : Nat) : a < 2 ^ (nlog2 a + 1) := log2F_bound a a (Nat.le_refl a)

/-! ### The CRC generator polynomial and reduction modulo it -/

/-- CRC-64-ECMA generator polynomial in normal form, from `build_table.rs`. -/
def NPOLY : Nat := 0x42F0E1EBA9EA3693

/-- The full 65-bit generator `x^64 + NPOLY` over GF(2). -/
def Gpoly : Nat := 2 ^ 64 + NPOLY

/-- One step of reduction modulo `Gpoly`: clear bit `64 + k` if set. -/
def redStep (k a : Nat) : Nat := if a.testBit (64 + k) then a ^^^ (Gpoly <<< k) else a

def polyModAux : Nat → Nat → Nat
  | 0, a => a
  | k + 1, a => polyModAux k (redStep k a)

/-- Canonical representative (degree < 64) of a GF(2) polynomial modulo
`Gpoly`, by long division from the top bit down. -/
def polyMod (a : Nat) : Nat := polyModAux (nlog2 a + 1) a

theorem testBit_true_of_ge_two_pow {x k : Nat} (h1 : 2 ^ k ≤ x) (h2 : x < 2 ^ (k + 1)) :
    x.testBit k = true := by
  rw [Nat.testBit_to_div_mod]
  have : x / 2 ^ k = 1 := by
    have h3 : (2 : Nat) ^ (k + 1) = 2 * 2 ^ k := by ring
    exact Nat.div_eq_of_lt_le (by omega) (by omega)
  simp [this]

theorem Gpoly_testBit_64 : Gpoly.testBit 64 = true := by decide

theorem Gpoly_lt : Gpoly < 2 ^ 65 := by decide

theorem redStep_lt {k a : Nat} (h : a < 2 ^ (64 + k + 1)) : redStep k a < 2 ^ (64 + k) := by
  unfold redStep
  by_cases hbit : a.testBit (64 + k)
  · rw [if_pos hbit]
    apply Nat.lt_pow_two_of_testBit
    intro i hi
    rcases Nat.eq_or_lt_of_le hi with rfl | hgt
    · have hg : (Gpoly <<< k).testBit (64 + k) = true := by
        rw [Nat.testBit_shiftLeft, decide_eq_true (by omega : 64 + k ≥ k)]
        have : 64 + k - k = 64 := by omega
        rw [this, Gpoly_testBit_64]
        simp
      simp [Nat.testBit_xor, hbit, hg]
    · have ha : a.testBit i = false := by
        apply Nat.testBit_lt_two_pow
        calc a < 2 ^ (64 + k + 1) := h
        _ ≤ 2 ^ i := Nat.pow_le_pow_right (by norm_num) (by omega)
      have hg : (Gpoly <<< k).testBit i = false := by
        rw [Nat.testBit_shiftLeft]
        have hgf : Gpoly.testBit (i - k) = false := by
          apply Nat.testBit_lt_two_pow
          calc Gpoly < 2 ^ 65 := Gpoly_lt
          _ ≤ 2 ^ (i - k) := Nat.pow_le_pow_right (by norm_num) (by omega)
        rw [hgf]
        simp
      simp [Nat.testBit_xor, ha, hg]
  · rw [if_neg hbit]
    apply Nat.lt_pow_two_of_testBit
    intro i hi
    rcases Nat.eq_or_lt_of_le hi with rfl | hgt
    · simpa using hbit
    · apply Nat.testBit_lt_two_pow
      calc a < 2 ^ (64 + k + 1) := h
      _ ≤ 2 ^ i := Nat.pow_le_pow_right (by norm_num) (by omega)

theorem polyModAux_lt : ∀ k a : Nat, a < 2 ^ (64 + k) → polyModAux k a < 2 ^ 64 := by
  intro k
  induction k with
  | zero => intro a h; simpa [polyModAux] using h
  | succ k ih =>
    intro a h
    have h2 : a < 2 ^ (64 + k + 1) := by
      rw [show 64 + k + 1 = 64 + (k + 1) by omega]
      exact h
    exact ih (redStep k a) (redStep_lt h2)

theorem polyMod_lt (a : Nat) : polyMod a < 2 ^ 64 := by
  apply polyModAux_lt
  calc a < 2 ^ (nlog2 a + 1) := nlog2_bound a
  _ ≤ 2 ^ (64 + (nlog2 a + 1)) := Nat.pow_le_pow_right (by norm_num) (by omega)

/-- Two polynomials are equivalent when they differ by a multiple of the
generator. -/
def pequiv (a b : Nat) : Prop := ∃ q, a ^^^ b = clmul q Gpoly

theorem pequiv_refl (a : Nat) : pequiv a a := ⟨0, by simp [clmul_zero_left]⟩

theorem pequiv_symm {a b : Nat} (h : pequiv a b) : pequiv b a := by
  obtain ⟨q, hq⟩ := h
  exact ⟨q, by rw [Nat.xor_comm, hq]⟩

theorem pequiv_trans {a b c : Nat} (h1 : pequiv a b) (h2 : pequiv b c) : pequiv a c := by
  obtain ⟨q1, hq1⟩ := h1
  obtain ⟨q2, hq2⟩ := h2
  refine ⟨q1 ^^^ q2, ?_⟩
  rw [clmul_xor_left, ← hq1, ← hq2]
  simp [Nat.xor_assoc, xor_left_comm, Nat.xor_comm, Nat.xor_self, xor_cancel_left]

theorem pequiv_xor {a b c d : Nat} (h1 : pequiv a b) (h2 : pequiv c d) :
    pequiv (a ^^^ c) (b ^^^ d) := by
  obtain ⟨q1, hq1⟩ := h1
  obtain ⟨q2, hq2⟩ := h2
  refine ⟨q1 ^^^ q2, ?_⟩
  rw [clmul_xor_left, ← hq1, ← hq2]
  simp [Nat.xor_assoc, xor_left_comm, Nat.xor_comm, Nat.xor_self, xor_cancel_left]

theorem pequiv_shl {a b : Nat} (k : Nat) (h : pequiv a b) : pequiv (a <<< k) (b <<< k) := by
  obtain ⟨q, hq⟩ := h
  refine ⟨q <<< k, ?_⟩
  rw [← shiftLeft_xor_distrib, hq, clmul_shiftLeft_left]

theorem pequiv_clmul_left {a b : Nat} (c : Nat) (h : pequiv a b) :
    pequiv (clmul c a) (clmul c b) := by
  obtain ⟨q, hq⟩ := h
  refine ⟨clmul c q, ?_⟩
  rw [← clmul_xor_right, hq, ← clmul_assoc]

theorem pequiv_clmul_right {a b : Nat} (c : Nat) (h : pequiv a b) :
    pequiv (clmul a c) (clmul b c) := by
  rw [clmul_comm a c, clmul_comm b c]
  exact pequiv_clmul_left c h

theorem redStep_equiv (k a : Nat) : pequiv (redStep k a) a := by
  unfold redStep
  by_cases hbit : a.testBit (64 + k)
  · rw [if_pos hbit]
    refine ⟨2 ^ k, ?_⟩
    rw [clmul_two_pow_left]
    simp [Nat.xor_assoc, xor_left_comm, Nat.xor_comm, Nat.xor_self, xor_cancel_left]
  · rw [if_neg hbit]
    exact pequiv_refl a

theorem polyModAux_equiv : ∀ k a : Nat, pequiv (polyModAux k a) a := by
  intro k
  induction k with
  | zero => intro a; exact pequiv_refl a
  | succ k ih =>
    intro a
    exact pequiv_trans (ih (redStep k a)) (redStep_equiv k a)

theorem polyMod_equiv (a : Nat) : pequiv (polyMod a) a := polyModAux_equiv _ a

theorem clmul_Gpoly_ge {q : Nat} (hq : q ≠ 0) : 2 ^ 64 ≤ clmul q Gpoly := by
  induction q using Nat.strong_induction_on with
  | _ q ih =>
    rcases (by omega : q % 2 = 0 ∨ q % 2 = 1) with h2 | h2
    · have hq2 : q / 2 ≠ 0 := by omega
      have hqq : q = 2 * (q / 2) := by omega
      rw [hqq, clmul_two_mul_left]
      have := ih (q / 2) (by omega) hq2
      omega
    · have hqq : q = 2 * (q / 2) + 1 := by omega
      rw [hqq, clmul_bit1_left]
      by_cases hz : q / 2 = 0
      · rw [hz]
        simp [clmul_zero_left]
        decide
      · have hge : 2 ^ 64 ≤ clmul (q / 2) Gpoly := ih (q / 2) (by omega) hz
        have h65 : 2 ^ 65 ≤ 2 * clmul (q / 2) Gpoly := by omega
        obtain ⟨i, hi65, hibit⟩ :
            ∃ i, i ≥ 65 ∧ (2 * clmul (q / 2) Gpoly).testBit i :=
          Nat.ge_two_pow_implies_high_bit_true h65
        have hgb : Gpoly.testBit i = false := by
          apply Nat.testBit_lt_two_pow
          calc Gpoly < 2 ^ 65 := Gpoly_lt
          _ ≤ 2 ^ i := Nat.pow_le_pow_right (by norm_num) (by omega)
        have : (Gpoly ^^^ 2 * clmul (q / 2) Gpoly).testBit i = true := by
          simp [Nat.testBit_xor, hgb, hibit]
        calc (2 : Nat) ^ 64 ≤ 2 ^ i := Nat.pow_le_pow_right (by norm_num) (by omega)
        _ ≤ _ := Nat.testBit_implies_ge this

theorem xor_eq_zero_iff {a b : Nat} : a ^^^ b = 0 ↔ a = b := by
  constructor
  · intro h
    apply Nat.eq_of_testBit_eq
    intro i
    have hbit := congrArg (fun t => t.testBit i) h
    simp only [Nat.testBit_xor, Nat.zero_testBit] at hbit
    cases h1 : a.testBit i <;> cases h2 : b.testBit i <;> simp_all
  · intro h
    simp [h]

/-- A polynomial class has a unique representative of degree below 64. -/
theorem pequiv_unique {a b : Nat} (h : pequiv a b) (ha : a < 2 ^ 64) (hb : b < 2 ^ 64) :
    a = b := by
  obtain ⟨q, hq⟩ := h
  rcases Nat.eq_zero_or_pos q with rfl | hpos
  · rw [clmul_zero_left] at hq
    exact xor_eq_zero_iff.mp hq
  · exfalso
    have h1 : a ^^^ b < 2 ^ 64 := Nat.xor_lt_two_pow ha hb
    have h2 : 2 ^ 64 ≤ clmul q Gpoly := clmul_Gpoly_ge (by omega)
    omega

theorem polyMod_congr {a b : Nat} (h : pequiv a b) : polyMod a = polyMod b :=
  pequiv_unique (pequiv_trans (pequiv_trans (polyMod_equiv a) h)
    (pequiv_symm (polyMod_equiv b))) (polyMod_lt a) (polyMod_lt b)

theorem polyMod_eq_self {a : Nat} (h : a < 2 ^ 64) : polyMod a = a :=
  pequiv_unique (polyMod_equiv a) (polyMod_lt a) h

theorem polyMod_xor (x y : Nat) : polyMod (x ^^^ y) = polyMod x ^^^ polyMod y :=
  pequiv_unique
    (pequiv_trans (polyMod_equiv (x ^^^ y))
      (pequiv_xor (pequiv_symm (polyMod_equiv x)) (pequiv_symm (polyMod_equiv y))))
    (polyMod_lt _) (Nat.xor_lt_two_pow (polyMod_lt x) (polyMod_lt y))

theorem polyMod_zero : polyMod 0 = 0 := polyMod_eq_self (by norm_num)

theorem polyMod_shl_polyMod (a k : Nat) : polyMod ((polyMod a) <<< k) = polyMod (a <<< k) :=
  polyMod_congr (pequiv_shl k (polyMod_equiv a))

theorem polyMod_polyMod (a : Nat) : polyMod (polyMod a) = polyMod a :=
  polyMod_eq_self (polyMod_lt a)

/-- Reducing a product may first reduce either factor. -/
theorem polyMod_clmul_polyMod_left (a b : Nat) :
    polyMod (clmul (polyMod a) b) = polyMod (clmul a b) :=
  polyMod_congr (pequiv_clmul_right b (polyMod_equiv a))

theorem polyMod_clmul_polyMod_right (a b : Nat) :
    polyMod (clmul a (polyMod b)) = polyMod (clmul a b) :=
  polyMod_congr (pequiv_clmul_left a (polyMod_equiv b))

/-- If `L` is the reduction of `x^n`, multiplying by `L` computes a
shift by `n` modulo the generator. -/
theorem polyMod_clmul_of_two_pow {L n : Nat} (hL : polyMod (2 ^ n) = L) (a : Nat) :
    polyMod (clmul a L) = polyMod (a <<< n) := by
  rw [← hL, polyMod_clmul_polyMod_right, clmul_two_pow_right]

/-! ### XOR-linear maps and the basis extension principle -/

/-- A map on GF(2) polynomials that preserves 0 and XOR. -/
def IsLin (f : Nat → Nat) : Prop := f 0 = 0 ∧ ∀ x y, f (x ^^^ y) = f x ^^^ f y

theorem IsLin.comp {f g : Nat → Nat} (hf : IsLin f) (hg : IsLin g) : IsLin (fun x => f (g x)) :=
  ⟨by simp [hg.1, hf.1], fun x y => by simp [hg.2, hf.2]⟩

theorem IsLin.xor2 {f g : Nat → Nat} (hf : IsLin f) (hg : IsLin g) :
    IsLin (fun x => f x ^^^ g x) := by
  refine ⟨by simp [hf.1, hg.1], fun x y => ?_⟩
  simp only [hf.2, hg.2]
  rw [Nat.xor_assoc, Nat.xor_assoc]
  congr 1
  rw [xor_left_comm]

theorem IsLin.shl (k : Nat) : IsLin (fun x => x <<< k) :=
  ⟨by simp, fun x y => shiftLeft_xor_distrib x y k⟩

theorem IsLin.shr (k : Nat) : IsLin (fun x => x >>> k) :=
  ⟨by simp, fun x y => shiftRight_xor_distrib x y k⟩

theorem IsLin.modPow (n : Nat) : IsLin (fun x => x % 2 ^ n) :=
  ⟨by simp, fun x y => mod_two_pow_xor_distrib x y n⟩

theorem IsLin.clmulRight (c : Nat) : IsLin (fun x => clmul x c) :=
  ⟨clmul_zero_left c, fun x y => clmul_xor_left x y c⟩

theorem IsLin.clmulLeft (c : Nat) : IsLin (fun x => clmul c x) :=
  ⟨clmul_zero_right c, fun x y => clmul_xor_right c x y⟩

theorem IsLin.bitrevW (w : Nat) : IsLin (fun x => bitrev w x) :=
  ⟨bitrev_zero_val w, fun x y => bitrev_xor w x y⟩

theorem IsLin.polyModF : IsLin polyMod := ⟨polyMod_zero, polyMod_xor⟩

theorem IsLin.id : IsLin (fun x => x) := ⟨rfl, fun _ _ => rfl⟩

theorem IsLin.const_zero : IsLin (fun _ => 0) := ⟨rfl, fun _ _ => by simp⟩

theorem xor_top_lt {x n : Nat} (hx : x < 2 ^ (n + 1)) (hb : x.testBit n = true) :
    x ^^^ 2 ^ n < 2 ^ n := by
  apply Nat.lt_pow_two_of_testBit
  intro i hi
  rcases Nat.eq_or_lt_of_le hi with rfl | hgt
  · simp [Nat.testBit_xor, hb, Nat.testBit_two_pow_self]
  · have h1 : x.testBit i = false := by
      apply Nat.testBit_lt_two_pow
      calc x < 2 ^ (n + 1) := hx
      _ ≤ 2 ^ i := Nat.pow_le_pow_right (by norm_num) (by omega)
    have h2 : (2 ^ n : Nat).testBit i = false := Nat.testBit_two_pow_of_ne (by omega)
    simp [Nat.testBit_xor, h1, h2]

theorem top_clear_lt {x n : Nat} (hx : x < 2 ^ (n + 1)) (hb : x.testBit n = false) :
    x < 2 ^ n := by
  apply Nat.lt_pow_two_of_testBit
  intro i hi
  rcases Nat.eq_or_lt_of_le hi with rfl | hgt
  · exact hb
  · apply Nat.testBit_lt_two_pow
    calc x < 2 ^ (n + 1) := hx
    _ ≤ 2 ^ i := Nat.pow_le_pow_right (by norm_num) (by omega)

/-- Two XOR-linear maps that agree on the power-of-two basis agree on
every value below `2 ^ n`. -/
theorem lin_ext {f g : Nat → Nat} (hf : IsLin f) (hg : IsLin g) :
    ∀ n : Nat, (∀ i < n, f (2 ^ i) = g (2 ^ i)) → ∀ x < 2 ^ n, f x = g x := by
  intro n
  induction n with
  | zero =>
    intro _ x hx
    interval_cases x
    rw [hf.1, hg.1]
  | succ n ih =>
    intro hbasis x hx
    cases hbit : x.testBit n with
    | false => exact ih (fun i hi => hbasis i (by omega)) x (top_clear_lt hx hbit)
    | true =>
      have hlow : x ^^^ 2 ^ n < 2 ^ n := xor_top_lt hx hbit
      have hxeq : x = 2 ^ n ^^^ (x ^^^ 2 ^ n) := by
        rw [Nat.xor_comm x (2 ^ n), xor_cancel_left]
      rw [hxeq, hf.2, hg.2, hbasis n (by omega),
        ih (fun i hi => hbasis i (by omega)) _ hlow]

/-! ### Embedding of `build_table.rs` -/

/-- One long-division step from `build_table.rs`:
`m << 1 ^ if m >> 63 != 0 { POLY } else { 0 }` on `u64` (for a `u64`,
`m >> 63 != 0` is exactly bit 63). -/
def long_div_step (m : Nat) : Nat :=
  ((m <<< 1) % 2 ^ 64) ^^^ (if m.testBit 63 then NPOLY else 0)

namespace table

/-- `TABLE_j[b]` as generated by `build_table.rs`: start from
`reverse_bits(b) << 56`, run `8*j + 8` long-division steps, and
bit-reverse the result. -/
def entry (j b : Nat) : Nat := bitrev 64 (long_div_step^[8 * j + 8] ((bitrev 8 b) <<< 56))

/- The sixteen fold coefficients and the Barrett constants, literal
values from `src/pclmulqdq.rs` (the same constants that `table.rs`
exports to `pclmulqdq/mod.rs`). -/

def K_127 : Nat := 0xdabe95afc7875f40
def K_191 : Nat := 0xe05dd497ca393ae4
def K_255 : Nat := 0x3be653a30fe1af51
def K_319 : Nat := 0x60095b008a9efa44
def K_383 : Nat := 0x69a35d91c3730254
def K_447 : Nat := 0xb5ea1af9c013aca4
def K_511 : Nat := 0x081f6054a7842df4
def K_575 : Nat := 0x6ae3efbb9dd441f3
def K_639 : Nat := 0x0e31d519421a63a5
def K_703 : Nat := 0x2e30203212cac325
def K_767 : Nat := 0xe4ce2cd55fea0037
def K_831 : Nat := 0x2fe3fd2920ce82ec
def K_895 : Nat := 0x947874de595052cb
def K_959 : Nat := 0x9e735cb59b4724da
def K_1023 : Nat := 0xd7d86b2af73de740
def K_1087 : Nat := 0x8757d71d4fcc1000

/-- Bit-reversed generator, from `src/pclmulqdq.rs`. -/
def POLY : Nat := 0x92d8af2baf0e1e85

/-- Barrett constant, from `src/pclmulqdq.rs`. -/
def MU : Nat := 0x9c3e466c172963d5

/-- Modelled from the spec: the tail (one byte at a time) step of the
missing `table.rs` scalar update:
`state = (state >> 8) ⊕ TABLE_0[(state ⊕ b) & 0xFF]`. -/
def tail_step (s b : Nat) : Nat := (s >>> 8) ^^^ entry 0 ((s ^^^ b) &&& 0xFF)

/-- Byte `i` of the block, XORed with byte `i` of the state for the
first eight positions. -/
def block_go (s : Nat) : Nat → List Nat → Nat
  | _, [] => 0
  | i, b :: rest =>
    entry (15 - i) (b ^^^ (if i < 8 then (s >>> (8 * i)) &&& 0xFF else 0)) ^^^
      block_go s (i + 1) rest

/-- Modelled from the spec: the slice-by-16 block step of the missing
`table.rs` scalar update. For a 16-byte block `blk`,
`TABLE_15[b0 ⊕ state0] ⊕ … ⊕ TABLE_8[b7 ⊕ state7] ⊕ TABLE_7[b8] ⊕ … ⊕ TABLE_0[b15]`
where `statei` is the i-th little-endian byte of `state`. -/
def block_step (s : Nat) (blk : List Nat) : Nat := block_go s 0 blk

/-- Fueled worker for the scalar update (16-byte blocks, then tail). -/
def updateF : Nat → Nat → List Nat → Nat
  | 0, s, B => B.foldl tail_step s
  | f + 1, s, B =>
    if 16 ≤ B.length then updateF f (block_step s (B.take 16)) (B.drop 16)
    else B.foldl tail_step s

/-- Modelled from the spec: `table::update`, the byte-table scalar CRC
update (`table.rs` itself is not part of the sources; §4.1 of the spec
describes it). -/
def update (s : Nat) (B : List Nat) : Nat := updateF B.length s B

theorem updateF_mono : ∀ f g : Nat, ∀ s : Nat, ∀ B : List Nat,
    B.length / 16 ≤ f → B.length / 16 ≤ g → updateF f s B = updateF g s B := by
  intro f
  induction f with
  | zero =>
    intro g s B hf hg
    have h16 : ¬ 16 ≤ B.length := by omega
    cases g with
    | zero => rfl
    | succ g => simp [updateF, h16]
  | succ f ih =>
    intro g s B hf hg
    by_cases h16 : 16 ≤ B.length
    · have hlen : (B.drop 16).length = B.length - 16 := by simp
      cases g with
      | zero => omega
      | succ g =>
        simp only [updateF, h16, if_pos]
        apply ih
        · omega
        · omega
    · cases g with
      | zero => simp [updateF, h16]
      | succ g => simp [updateF, h16]

/-- The defining equation of the scalar update, fuel-free. -/
theorem update_eq (s : Nat) (B : List Nat) :
    update s B =
      if 16 ≤ B.length then update (block_step s (B.take 16)) (B.drop 16)
      else B.foldl tail_step s := by
  by_cases h16 : 16 ≤ B.length
  · rw [if_pos h16]
    obtain ⟨f, hf⟩ : ∃ f, B.length = f + 1 := ⟨B.length - 1, by omega⟩
    have hd : (B.drop 16).length = B.length - 16 := by simp
    show updateF B.length s B = updateF (B.drop 16).length _ _
    rw [hf]
    simp only [updateF, if_pos h16]
    apply updateF_mono
    · omega
    · omega
  · rw [if_neg h16]
    show updateF B.length s B = _
    rw [updateF_mono B.length 0 s B (by omega) (by omega)]
    rfl

end table

/-! ### Embedding of `pclmulqdq/arch.rs` (the portable `Simd`) -/

/-- `poly_mul` from `pclmulqdq/arch.rs`: naive carryless multiplication
of a `u64` by a `u64` giving a `u128`. -/
def poly_mul (a b : Nat) : Nat :=
  (List.range 64).foldl (fun res i => if a.testBit i then res ^^^ (b <<< i) else res) 0

namespace simd

/-- `Simd::new` from `pclmulqdq/arch.rs`:
`u128::from(low) | u128::from(high) << 64`. -/
def new (high low : Nat) : Nat := (low % 2 ^ 64) ||| ((high % 2 ^ 64) <<< 64)

/-- `Simd::fold_16` from `pclmulqdq/arch.rs`. -/
def fold_16 (x coeff : Nat) : Nat :=
  poly_mul (coeff % 2 ^ 64) (x % 2 ^ 64) ^^^
    poly_mul ((coeff >>> 64) % 2 ^ 64) ((x >>> 64) % 2 ^ 64)

/-- `Simd::fold_8` from `pclmulqdq/arch.rs`. -/
def fold_8 (x coeff : Nat) : Nat := poly_mul coeff (x % 2 ^ 64) ^^^ (x >>> 64)

/-- `Simd::barrett` from `pclmulqdq/arch.rs`. -/
def barrett (x poly mu : Nat) : Nat :=
  let t1 := poly_mul (x % 2 ^ 64) mu
  let h := (t1 <<< 64) % 2 ^ 128
  let l := poly_mul (t1 % 2 ^ 64) poly
  ((x ^^^ h ^^^ l) >>> 64) % 2 ^ 64

end simd

/-! ### Embedding of `pclmulqdq/mod.rs` (the SIMD driver) -/

namespace pclmulqdq

/-- Little-endian reinterpretation of 16 bytes as one 128-bit lane, as
performed by `bytes.align_to::<[Simd; 8]>()`. -/
def loadLane (bs : List Nat) : Nat := bs.foldr (fun b acc => b ^^^ (acc <<< 8)) 0

/-- Fueled chunking of a byte list into `k`-byte pieces. -/
def chunksF (k : Nat) : Nat → List Nat → List (List Nat)
  | 0, _ => []
  | f + 1, bs => if bs.isEmpty then [] else bs.take k :: chunksF k f (bs.drop k)

def chunksOf (k : Nat) (bs : List Nat) : List (List Nat) := chunksF k bs.length bs

/-- The eight 128-bit lanes of one 128-byte chunk. -/
def toLanes (bs : List Nat) : List Nat := (chunksOf 16 bs).map loadLane

/-- The 128-byte-fold coefficient register of `update_simd` in
`pclmulqdq/mod.rs`: `Simd::new(table::K_1023, table::K_1087)`. -/
def coeff128 : Nat := simd.new table.K_1023 table.K_1087

/-- One iteration of the main loop of `update_simd`:
`*xi = *yi ^ xi.fold_16(coeff)` on each of the eight lanes. -/
def loopStep (x y : List Nat) : List Nat :=
  List.zipWith (fun xi yi => yi ^^^ simd.fold_16 xi coeff128) x y

/-- The seven tail-fold coefficient registers of `update_simd`. -/
def tailCoeffs : List Nat :=
  [simd.new table.K_895 table.K_959, simd.new table.K_767 table.K_831,
   simd.new table.K_639 table.K_703, simd.new table.K_511 table.K_575,
   simd.new table.K_383 table.K_447, simd.new table.K_255 table.K_319,
   simd.new table.K_127 table.K_191]

/-- `update_simd` from `pclmulqdq/mod.rs`, on eight first-chunk lanes
and a list of subsequent 128-byte chunks (as lanes). -/
def update_simd (state : Nat) (first : List Nat) (rest : List (List Nat)) : Nat :=
  let x0 := first.set 0 (first.getD 0 0 ^^^ simd.new 0 state)
  let xr := rest.foldl loopStep x0
  simd.barrett
    (simd.fold_8
      ((xr.zip tailCoeffs).foldl (fun acc p => acc ^^^ simd.fold_16 p.1 p.2) (xr.getD 7 0))
      table.K_127)
    table.POLY table.MU

/-- `update` from `pclmulqdq/mod.rs`.  `off` models the address
alignment (mod 16) of the incoming slice, which determines the split
produced by `bytes.align_to::<[Simd; 8]>()`: a `left` part of fewer than
16 bytes up to the alignment boundary, a `middle` of whole 128-byte
chunks, and the remaining `right`. -/
def update (off : Nat) (state : Nat) (bytes : List Nat) : Nat :=
  let pad := (16 - off % 16) % 16
  let ll := min bytes.length pad
  let left := bytes.take ll
  let rest := bytes.drop ll
  let nm := rest.length / 128
  let middle := rest.take (nm * 128)
  let right := rest.drop (nm * 128)
  match (chunksOf 128 middle).map toLanes with
  | [] => table.update state bytes
  | first :: restChunks =>
    table.update (update_simd (table.update state left) first restChunks) right

/-- The scalar fallback as an update function (ignoring the alignment
parameter, which the table path never looks at). -/
def table_update_fn : Nat → Nat → List Nat → Nat := fun _ s bytes => table.update s bytes

/-- `get_update` from `pclmulqdq/mod.rs`; `supported` is the outcome of
the runtime `Simd::is_supported()` probe. -/
def get_update (supported : Bool) : Nat → Nat → List Nat → Nat :=
  if supported then update else table_update_fn

end pclmulqdq

/-! ### Embedding of `lib.rs` (the `Digest` facade) -/

structure Digest where
  computer : Nat → Nat → List Nat → Nat
  state : Nat

namespace Digest

/-- `Digest::new`; `supported` is the runtime CPU-feature probe result. -/
def new (supported : Bool) : Digest :=
  { computer := pclmulqdq.get_update supported, state := 2 ^ 64 - 1 }

/-- `Digest::new_table`. -/
def new_table : Digest := { computer := pclmulqdq.table_update_fn, state := 2 ^ 64 - 1 }

/-- `Digest::write`; `off` models the alignment of the written slice. -/
def write (d : Digest) (off : Nat) (bytes : List Nat) : Digest :=
  { d with state := d.computer off d.state bytes }

/-- `Digest::sum64`: bitwise NOT of the 64-bit state. -/
def sum64 (d : Digest) : Nat := d.state ^^^ (2 ^ 64 - 1)

end Digest

/-! ### Embedding of `src/pclmulqdq.rs` (the standalone x86 variant) -/

/-- Model of the x86 `_mm_clmulepi64_si128` intrinsic: carryless product
of one 64-bit half of each operand, halves selected by bits 0 and 4 of
the immediate. -/
def mm_clmulepi64_si128 (a b imm : Nat) : Nat :=
  clmul (if imm % 2 = 1 then (a >>> 64) % 2 ^ 64 else a % 2 ^ 64)
    (if (imm >>> 4) % 2 = 1 then (b >>> 64) % 2 ^ 64 else b % 2 ^ 64)

/-- Model of `_mm_srli_si128(a, 8)`: shift right by 8 bytes. -/
def mm_srli_si128_8 (a : Nat) : Nat := (a % 2 ^ 128) >>> 64

/-- Model of `_mm_slli_si128(a, 8)`: shift left by 8 bytes. -/
def mm_slli_si128_8 (a : Nat) : Nat := (a <<< 64) % 2 ^ 128

/-- Model of `_mm_xor_si128`. -/
def mm_xor_si128 (a b : Nat) : Nat := a ^^^ b

/-- Model of `_mm_set_epi64x(high, low)`. -/
def mm_set_epi64x (high low : Nat) : Nat := (low % 2 ^ 64) ||| ((high % 2 ^ 64) <<< 64)

/-- Model of `_mm_extract_epi64(a, 1)`. -/
def mm_extract_epi64_1 (a : Nat) : Nat := (a >>> 64) % 2 ^ 64

namespace pclmulqdq_v1

/-- `build_const` from `src/pclmulqdq.rs`. -/
def build_const (high low : Nat) : Nat := mm_set_epi64x high low

/-- `fold` from `src/pclmulqdq.rs`: selectors `0x10` and `0x01`. -/
def fold (coeff x y : Nat) : Nat :=
  mm_xor_si128
    (mm_xor_si128 (mm_clmulepi64_si128 x coeff 0x10) (mm_clmulepi64_si128 x coeff 0x01)) y

/-- `coeff_128 = build_const(K_1087, K_1023)` from `src/pclmulqdq.rs`. -/
def coeff_128 : Nat := build_const table.K_1087 table.K_1023

/-- The seven tail-fold coefficients of `src/pclmulqdq.rs`, in fold
order. -/
def coeffs_v1 : List Nat :=
  [build_const table.K_959 table.K_895, build_const table.K_831 table.K_767,
   build_const table.K_703 table.K_639, build_const table.K_575 table.K_511,
   build_const table.K_447 table.K_383, build_const table.K_319 table.K_255,
   build_const table.K_191 table.K_127]

/-- `update_simd` from `src/pclmulqdq.rs`. -/
def update_simd (state : Nat) (first : List Nat) (rest : List (List Nat)) : Nat :=
  let x0 := first.set 0 (mm_xor_si128 (first.getD 0 0) (build_const 0 state))
  let xr := rest.foldl (fun x y => List.zipWith (fun xi yi => fold coeff_128 xi yi) x y) x0
  let x7 := (xr.zip coeffs_v1).foldl (fun acc p => fold p.2 p.1 acc) (xr.getD 7 0)
  let r := mm_xor_si128 (mm_clmulepi64_si128 x7 (build_const 0 table.K_127) 0x00)
    (mm_srli_si128_8 x7)
  let polymu := build_const table.POLY table.MU
  let t1 := mm_clmulepi64_si128 r polymu 0x00
  let t2 := mm_clmulepi64_si128 t1 polymu 0x10
  mm_extract_epi64_1 (mm_xor_si128 (mm_xor_si128 t2 (mm_slli_si128_8 t1)) r)

/-- `update` from `src/pclmulqdq.rs` (same alignment-split driver as the
module variant). -/
def update (off : Nat) (state : Nat) (bytes : List Nat) : Nat :=
  let pad := (16 - off % 16) % 16
  let ll := min bytes.length pad
  let left := bytes.take ll
  let rest := bytes.drop ll
  let nm := rest.length / 128
  let middle := rest.take (nm * 128)
  let right := rest.drop (nm * 128)
  match (pclmulqdq.chunksOf 128 middle).map pclmulqdq.toLanes with
  | [] => table.update state bytes
  | first :: restChunks =>
    table.update (update_simd (table.update state left) first restChunks) right

end pclmulqdq_v1

/-! ### Embedding of `pclmulqdq/x86.rs` lane primitives -/

/-- `Simd::fold_16` from `pclmulqdq/x86.rs`: selectors `0x11` and
`0x00`. -/
def x86_fold_16 (x coeff : Nat) : Nat :=
  mm_xor_si128 (mm_clmulepi64_si128 x coeff 0x11) (mm_clmulepi64_si128 x coeff 0x00)

/-- `Simd::fold_8` from `pclmulqdq/x86.rs`. -/
def x86_fold_8 (x coeff : Nat) : Nat :=
  mm_xor_si128 (mm_clmulepi64_si128 x (mm_set_epi64x 0 coeff) 0x00) (mm_srli_si128_8 x)

/-- `Simd::barrett` from `pclmulqdq/x86.rs`. -/
def x86_barrett (x poly mu : Nat) : Nat :=
  let polymu := mm_set_epi64x poly mu
  let t1 := mm_clmulepi64_si128 x polymu 0x00
  mm_extract_epi64_1
    (mm_xor_si128 (mm_xor_si128 (mm_slli_si128_8 t1) (mm_clmulepi64_si128 t1 polymu 0x10)) x)

/-! ### The reference checksum and the reflected byte-level CRC -/

/-- One byte of the reference checksum in the normal (MSB-first) domain:
reflect the byte into the top of the register, then run eight
polynomial long-division steps. -/
def crcN_byte (t b : Nat) : Nat := long_div_step^[8] (t ^^^ ((bitrev 8 b) <<< 56))

/-- Modelled from the spec: the reference scalar CRC-64-ECMA (CRC-64-XZ)
checksum per the glossary — generator `0x42F0E1EBA9EA3693`, initial
value all-ones, input and output reflected, final XOR all-ones.  (No
reference implementation ships in `src/`; the tests use the external
`crc` crate.) -/
def reference_crc64_ecma (B : List Nat) : Nat :=
  bitrev 64 (B.foldl crcN_byte (2 ^ 64 - 1)) ^^^ (2 ^ 64 - 1)

/-- The reflected generator: `bitrev 64 NPOLY`. -/
def RPOLY : Nat := 0xC96C5795D7870F42

/-- One reflected CRC bit step. -/
def crcBit (v : Nat) : Nat := (v >>> 1) ^^^ (if v.testBit 0 then RPOLY else 0)

def crcBitN (n v : Nat) : Nat := crcBit^[n] v

/-- One reflected CRC byte step. -/
def byteStepR (s b : Nat) : Nat := crcBitN 8 (s ^^^ b)

/-- Reflected byte-at-a-time CRC state update over a byte list. -/
def crcFold (s : Nat) (B : List Nat) : Nat := B.foldl byteStepR s

/-- The message polynomial of a byte list in the normal domain: bytes
MSB-first, each byte bit-reflected. -/
def msgPoly (B : List Nat) : Nat := B.foldl (fun acc b => (acc <<< 8) ^^^ bitrev 8 b) 0

/-- The combined normal-domain polynomial of a list of 128-bit lanes,
first lane highest. -/
def lanesPoly (x : List Nat) : Nat := x.foldl (fun acc v => (acc <<< 128) ^^^ bitrev 128 v) 0

/-- The combined normal-domain polynomial of a list of 8-lane chunks,
first chunk highest. -/
def chunksLanesPoly (ys : List (List Nat)) : Nat :=
  ys.foldl (fun acc y => (acc <<< 1024) ^^^ lanesPoly y) 0

/-- The variant of `update_simd` described by the claim, with the two
64-bit halves of the 128-byte fold coefficient register swapped:
`Simd::new(K_1087, K_1023)` instead of the code's
`Simd::new(K_1023, K_1087)`. -/
def update_simd_claimed (state : Nat) (first : List Nat) (rest : List (List Nat)) : Nat :=
  let x0 := first.set 0 (first.getD 0 0 ^^^ simd.new 0 state)
  let xr := rest.foldl
    (fun x y =>
      List.zipWith (fun xi yi => yi ^^^ simd.fold_16 xi (simd.new table.K_1087 table.K_1023)) x y)
    x0
  simd.barrett
    (simd.fold_8
      ((xr.zip pclmulqdq.tailCoeffs).foldl (fun acc p => acc ^^^ simd.fold_16 p.1 p.2)
        (xr.getD 7 0))
      table.K_127)
    table.POLY table.MU

/-- The lane-level Barrett formula as the spec states it: with
`t = clmul(x.low, mu).low`, return `(clmul(t, poly) XOR (t << 64) XOR x).high`
over 128-bit values. -/
def barrett_spec (x poly mu : Nat) : Nat :=
  let t := (clmul (x % 2 ^ 64) mu) % 2 ^ 64
  (((clmul t poly ^^^ ((t <<< 64) % 2 ^ 128) ^^^ x) % 2 ^ 128) >>> 64) % 2 ^ 64

/-- The nine ASCII bytes of `"123456789"`. -/
def checkBytes : List Nat := [0x31, 0x32, 0x33, 0x34, 0x35, 0x36, 0x37, 0x38, 0x39]

/-! ### `poly_mul` is carryless multiplication -/

theorem mod_pow_succ_xor (a n : Nat) :
    a % 2 ^ (n + 1) = (a % 2 ^ n) ^^^ (if a.testBit n then 2 ^ n else 0) := by
  cases hb : a.testBit n with
  | false =>
    rw [if_neg (by simp [hb]), Nat.xor_zero]
    apply Nat.eq_of_testBit_eq
    intro i
    simp only [Nat.testBit_mod_two_pow]
    rcases Nat.lt_trichotomy i n with h | h | h
    · rw [decide_eq_true (by omega : i < n + 1), decide_eq_true h]
    · subst h
      rw [decide_eq_true (by omega : i < i + 1), dfalse (by omega : ¬ i < i), hb]
      simp
    · rw [dfalse (by omega : ¬ i < n + 1), dfalse (by omega : ¬ i < n)]
  | true =>
    rw [if_pos (by simp [hb])]
    apply Nat.eq_of_testBit_eq
    intro i
    simp only [Nat.testBit_mod_two_pow, Nat.testBit_xor]
    rcases Nat.lt_trichotomy i n with h | h | h
    · rw [decide_eq_true (by omega : i < n + 1), decide_eq_true h,
        Nat.testBit_two_pow_of_ne (by omega)]
      simp
    · subst h
      rw [decide_eq_true (by omega : i < i + 1), dfalse (by omega : ¬ i < i),
        Nat.testBit_two_pow_self, hb]
      simp
    · rw [dfalse (by omega : ¬ i < n + 1), dfalse (by omega : ¬ i < n),
        Nat.testBit_two_pow_of_ne (by omega)]
      simp

theorem poly_mul_aux (a b : Nat) : ∀ n : Nat,
    (List.range n).foldl (fun res i => if a.testBit i then res ^^^ (b <<< i) else res) 0 =
      clmul (a % 2 ^ n) b := by
  intro n
  induction n with
  | zero => simp [Nat.mod_one, clmul_zero_left]
  | succ n ih =>
    rw [List.range_succ, List.foldl_append, ih]
    simp only [List.foldl_cons, List.foldl_nil]
    rw [mod_pow_succ_xor, clmul_xor_left]
    cases hb : a.testBit n with
    | false => simp [clmul_zero_left]
    | true => simp [clmul_two_pow_left]

/-- `poly_mul` computes the carryless product of the low 64 bits of its
first argument with its second argument. -/
theorem poly_mul_eq_clmul (a b : Nat) : poly_mul a b = clmul (a % 2 ^ 64) b :=
  poly_mul_aux a b 64

/-! ### XOR-linearity of the primitives -/

theorem ite_testBit_xor (x y k c : Nat) :
    (if (x ^^^ y).testBit k then c else 0) =
      (if x.testBit k then c else 0) ^^^ (if y.testBit k then c else 0) := by
  cases hx : x.testBit k <;> cases hy : y.testBit k <;>
    simp [Nat.testBit_xor, hx, hy]

theorem long_div_step_xor (x y : Nat) :
    long_div_step (x ^^^ y) = long_div_step x ^^^ long_div_step y := by
  unfold long_div_step
  rw [shiftLeft_xor_distrib, mod_two_pow_xor_distrib, ite_testBit_xor]
  simp [Nat.xor_assoc, xor_left_comm]

theorem long_div_step_zero : long_div_step 0 = 0 := by decide

theorem crcBit_xor (x y : Nat) : crcBit (x ^^^ y) = crcBit x ^^^ crcBit y := by
  unfold crcBit
  rw [shiftRight_xor_distrib, ite_testBit_xor]
  simp [Nat.xor_assoc, xor_left_comm]

theorem crcBit_zero : crcBit 0 = 0 := by decide

theorem IsLin.crcBitF : IsLin crcBit := ⟨crcBit_zero, crcBit_xor⟩

theorem crcBitN_xor (n x y : Nat) : crcBitN n (x ^^^ y) = crcBitN n x ^^^ crcBitN n y := by
  induction n with
  | zero => simp [crcBitN]
  | succ n ih =>
    simp only [crcBitN, Function.iterate_succ_apply'] at ih ⊢
    rw [ih, crcBit_xor]

theorem crcBitN_zero_val (n : Nat) : crcBitN n 0 = 0 := by
  induction n with
  | zero => rfl
  | succ n ih =>
    simp only [crcBitN, Function.iterate_succ_apply'] at ih ⊢
    rw [ih, crcBit_zero]

theorem IsLin.crcBitNF (n : Nat) : IsLin (crcBitN n) := ⟨crcBitN_zero_val n, crcBitN_xor n⟩

theorem fold_16_xor (x y c : Nat) :
    simd.fold_16 (x ^^^ y) c = simd.fold_16 x c ^^^ simd.fold_16 y c := by
  simp only [simd.fold_16, poly_mul_eq_clmul, shiftRight_xor_distrib,
    mod_two_pow_xor_distrib, clmul_xor_right]
  simp [Nat.xor_assoc, xor_left_comm, Nat.xor_comm]

theorem fold_16_zero (c : Nat) : simd.fold_16 0 c = 0 := by
  unfold simd.fold_16
  rw [poly_mul_eq_clmul, poly_mul_eq_clmul]
  simp [clmul_zero_right]

theorem fold_8_xor (x y c : Nat) :
    simd.fold_8 (x ^^^ y) c = simd.fold_8 x c ^^^ simd.fold_8 y c := by
  simp only [simd.fold_8, poly_mul_eq_clmul, shiftRight_xor_distrib,
    mod_two_pow_xor_distrib, clmul_xor_right]
  simp [Nat.xor_assoc, xor_left_comm, Nat.xor_comm]

theorem fold_8_zero (c : Nat) : simd.fold_8 0 c = 0 := by
  unfold simd.fold_8
  rw [poly_mul_eq_clmul]
  simp [clmul_zero_right]

theorem barrett_xor (x y p m : Nat) :
    simd.barrett (x ^^^ y) p m = simd.barrett x p m ^^^ simd.barrett y p m := by
  simp only [simd.barrett, poly_mul_eq_clmul, mod_two_pow_xor_distrib, clmul_xor_left,
    shiftLeft_xor_distrib, shiftRight_xor_distrib]
  simp [Nat.xor_assoc, xor_left_comm, Nat.xor_comm]

theorem barrett_zero (p m : Nat) : simd.barrett 0 p m = 0 := by
  unfold simd.barrett
  simp only [poly_mul_eq_clmul]
  simp [clmul_zero_left]

/-! ### Reductions of `x^n` modulo the generator -/

theorem bitrev_two_pow {w i : Nat} (h : i < w) : bitrev w (2 ^ i) = 2 ^ (w - 1 - i) := by
  apply Nat.eq_of_testBit_eq
  intro j
  rw [testBit_bitrev, Nat.testBit_two_pow]
  by_cases hj : j < w
  · rw [decide_eq_true hj, Nat.testBit_two_pow]
    by_cases hij : i = w - 1 - j
    · rw [decide_eq_true hij, decide_eq_true (by omega : w - 1 - i = j)]
      simp
    · rw [dfalse hij, dfalse (by omega : ¬ w - 1 - i = j)]
      simp
  · rw [dfalse hj, Nat.testBit_two_pow, dfalse (by omega : ¬ w - 1 - i = j)]
    simp

theorem polyMod_two_pow_add (m n : Nat) :
    polyMod (2 ^ (m + n)) = polyMod (clmul (polyMod (2 ^ m)) (polyMod (2 ^ n))) := by
  rw [polyMod_clmul_polyMod_left, polyMod_clmul_polyMod_right, clmul_two_pow_right,
    Nat.shiftLeft_eq, ← Nat.pow_add]

def Lm64 : Nat := 0x42f0e1eba9ea3693
def Lm128 : Nat := 0x05f5c3c7eb52fab6
def Lm192 : Nat := 0x4eb938a7d257740e
def Lm256 : Nat := 0x571bee0a227ef92b
def Lm320 : Nat := 0x44bef2a201b5200c
def Lm384 : Nat := 0x54819d8713758b2c
def Lm448 : Nat := 0x4a6b90073eb0af5a
def Lm512 : Nat := 0x5f6843ca540df020
def Lm576 : Nat := 0xddf4b6981205b83f
def Lm640 : Nat := 0x097c516e98bd2e73
def Lm704 : Nat := 0x0b76477b31e22e7b
def Lm768 : Nat := 0x9af04e1eff82d0dd
def Lm832 : Nat := 0x6e82e609297f8fe8
def Lm896 : Nat := 0xe464f4df5fb60ac1
def Lm960 : Nat := 0xb649c5b35a759cf2
def Lm1024 : Nat := 0x05cf79dea9ac37d6

theorem pm_Lm64 : polyMod (2 ^ 64) = Lm64 := by decide

theorem pm_Lm128 : polyMod (2 ^ 128) = Lm128 := by
  rw [show (128 : Nat) = 64 + 64 by norm_num, polyMod_two_pow_add, pm_Lm64]
  decide

theorem pm_Lm192 : polyMod (2 ^ 192) = Lm192 := by
  rw [show (192 : Nat) = 128 + 64 by norm_num, polyMod_two_pow_add, pm_Lm128, pm_Lm64]
  decide

theorem pm_Lm256 : polyMod (2 ^ 256) = Lm256 := by
  rw [show (256 : Nat) = 192 + 64 by norm_num, polyMod_two_pow_add, pm_Lm192, pm_Lm64]
  decide

theorem pm_Lm320 : polyMod (2 ^ 320) = Lm320 := by
  rw [show (320 : Nat) = 256 + 64 by norm_num, polyMod_two_pow_add, pm_Lm256, pm_Lm64]
  decide

theorem pm_Lm384 : polyMod (2 ^ 384) = Lm384 := by
  rw [show (384 : Nat) = 320 + 64 by norm_num, polyMod_two_pow_add, pm_Lm320, pm_Lm64]
  decide

theorem pm_Lm448 : polyMod (2 ^ 448) = Lm448 := by
  rw [show (448 : Nat) = 384 + 64 by norm_num, polyMod_two_pow_add, pm_Lm384, pm_Lm64]
  decide

theorem pm_Lm512 : polyMod (2 ^ 512) = Lm512 := by
  rw [show (512 : Nat) = 448 + 64 by norm_num, polyMod_two_pow_add, pm_Lm448, pm_Lm64]
  decide

theorem pm_Lm576 : polyMod (2 ^ 576) = Lm576 := by
  rw [show (576 : Nat) = 512 + 64 by norm_num, polyMod_two_pow_add, pm_Lm512, pm_Lm64]
  decide

theorem pm_Lm640 : polyMod (2 ^ 640) = Lm640 := by
  rw [show (640 : Nat) = 576 + 64 by norm_num, polyMod_two_pow_add, pm_Lm576, pm_Lm64]
  decide

theorem pm_Lm704 : polyMod (2 ^ 704) = Lm704 := by
  rw [show (704 : Nat) = 640 + 64 by norm_num, polyMod_two_pow_add, pm_Lm640, pm_Lm64]
  decide

theorem pm_Lm768 : polyMod (2 ^ 768) = Lm768 := by
  rw [show (768 : Nat) = 704 + 64 by norm_num, polyMod_two_pow_add, pm_Lm704, pm_Lm64]
  decide

theorem pm_Lm832 : polyMod (2 ^ 832) = Lm832 := by
  rw [show (832 : Nat) = 768 + 64 by norm_num, polyMod_two_pow_add, pm_Lm768, pm_Lm64]
  decide

theorem pm_Lm896 : polyMod (2 ^ 896) = Lm896 := by
  rw [show (896 : Nat) = 832 + 64 by norm_num, polyMod_two_pow_add, pm_Lm832, pm_Lm64]
  decide

theorem pm_Lm960 : polyMod (2 ^ 960) = Lm960 := by
  rw [show (960 : Nat) = 896 + 64 by norm_num, polyMod_two_pow_add, pm_Lm896, pm_Lm64]
  decide

theorem pm_Lm1024 : polyMod (2 ^ 1024) = Lm1024 := by
  rw [show (1024 : Nat) = 960 + 64 by norm_num, polyMod_two_pow_add, pm_Lm960, pm_Lm64]
  decide

/-- The sixteen fold coefficients are the bit-reversed reductions of
`x^n` modulo the generator, exactly as the comment in
`src/pclmulqdq.rs` states. -/
theorem pm_K127 : polyMod (2 ^ 127) = bitrev 64 table.K_127 := by
  rw [show (127 : Nat) = 64 + 63 by norm_num, polyMod_two_pow_add, pm_Lm64]
  decide

theorem pm_K191 : polyMod (2 ^ 191) = bitrev 64 table.K_191 := by
  rw [show (191 : Nat) = 128 + 63 by norm_num, polyMod_two_pow_add, pm_Lm128]
  decide

theorem pm_K255 : polyMod (2 ^ 255) = bitrev 64 table.K_255 := by
  rw [show (255 : Nat) = 192 + 63 by norm_num, polyMod_two_pow_add, pm_Lm192]
  decide

theorem pm_K319 : polyMod (2 ^ 319) = bitrev 64 table.K_319 := by
  rw [show (319 : Nat) = 256 + 63 by norm_num, polyMod_two_pow_add, pm_Lm256]
  decide

theorem pm_K383 : polyMod (2 ^ 383) = bitrev 64 table.K_383 := by
  rw [show (383 : Nat) = 320 + 63 by norm_num, polyMod_two_pow_add, pm_Lm320]
  decide

theorem pm_K447 : polyMod (2 ^ 447) = bitrev 64 table.K_447 := by
  rw [show (447 : Nat) = 384 + 63 by norm_num, polyMod_two_pow_add, pm_Lm384]
  decide

theorem pm_K511 : polyMod (2 ^ 511) = bitrev 64 table.K_511 := by
  rw [show (511 : Nat) = 448 + 63 by norm_num, polyMod_two_pow_add, pm_Lm448]
  decide

theorem pm_K575 : polyMod (2 ^ 575) = bitrev 64 table.K_575 := by
  rw [show (575 : Nat) = 512 + 63 by norm_num, polyMod_two_pow_add, pm_Lm512]
  decide

theorem pm_K639 : polyMod (2 ^ 639) = bitrev 64 table.K_639 := by
  rw [show (639 : Nat) = 576 + 63 by norm_num, polyMod_two_pow_add, pm_Lm576]
  decide

theorem pm_K703 : polyMod (2 ^ 703) = bitrev 64 table.K_703 := by
  rw [show (703 : Nat) = 640 + 63 by norm_num, polyMod_two_pow_add, pm_Lm640]
  decide

theorem pm_K767 : polyMod (2 ^ 767) = bitrev 64 table.K_767 := by
  rw [show (767 : Nat) = 704 + 63 by norm_num, polyMod_two_pow_add, pm_Lm704]
  decide

theorem pm_K831 : polyMod (2 ^ 831) = bitrev 64 table.K_831 := by
  rw [show (831 : Nat) = 768 + 63 by norm_num, polyMod_two_pow_add, pm_Lm768]
  decide

theorem pm_K895 : polyMod (2 ^ 895) = bitrev 64 table.K_895 := by
  rw [show (895 : Nat) = 832 + 63 by norm_num, polyMod_two_pow_add, pm_Lm832]
  decide

theorem pm_K959 : polyMod (2 ^ 959) = bitrev 64 table.K_959 := by
  rw [show (959 : Nat) = 896 + 63 by norm_num, polyMod_two_pow_add, pm_Lm896]
  decide

theorem pm_K1023 : polyMod (2 ^ 1023) = bitrev 64 table.K_1023 := by
  rw [show (1023 : Nat) = 960 + 63 by norm_num, polyMod_two_pow_add, pm_Lm960]
  decide

theorem pm_K1087 : polyMod (2 ^ 1087) = bitrev 64 table.K_1087 := by
  rw [show (1087 : Nat) = 1024 + 63 by norm_num, polyMod_two_pow_add, pm_Lm1024]
  decide

/-! ### Bit reversal of carryless products -/

theorem or_shl_eq_xor {x m : Nat} (y : Nat) (hx : x < 2 ^ m) :
    (y <<< m) ||| x = (y <<< m) ^^^ x := by
  apply Nat.eq_of_testBit_eq
  intro i
  simp only [Nat.testBit_or, Nat.testBit_xor, Nat.testBit_shiftLeft]
  by_cases hi : i < m
  · rw [dfalse (by omega : ¬ m ≤ i)]
    simp
  · have hxf : x.testBit i = false := by
      apply Nat.testBit_lt_two_pow
      calc x < 2 ^ m := hx
      _ ≤ 2 ^ i := Nat.pow_le_pow_right (by norm_num) (by omega)
    rw [hxf]
    simp

theorem bitrev_succ_xor (w v : Nat) :
    bitrev (w + 1) v = ((v % 2) <<< w) ^^^ bitrev w (v / 2) := by
  show ((v % 2) <<< w) ||| bitrev w (v / 2) = _
  exact or_shl_eq_xor (v % 2) (bitrev_lt w (v / 2))

theorem shiftLeft_one (z : Nat) : z <<< 1 = 2 * z := by
  rw [Nat.shiftLeft_eq]
  ring

theorem shiftLeft_succ_two (z m : Nat) : z <<< (m + 1) = 2 * (z <<< m) := by
  rw [Nat.shiftLeft_eq, Nat.shiftLeft_eq, pow_succ]
  ring

theorem shiftLeft_shiftLeft (z m n : Nat) : (z <<< m) <<< n = z <<< (m + n) := by
  rw [Nat.shiftLeft_eq, Nat.shiftLeft_eq, Nat.shiftLeft_eq, pow_add]
  ring

/-- Reversing a carryless product reverses the factors (with one spare
bit, since a product of an `m`-bit and an `n`-bit polynomial has degree
at most `m + n - 2`). -/
theorem brev_clmul : ∀ m a b n : Nat, a < 2 ^ m → b < 2 ^ n →
    bitrev (m + n) (clmul a b) = 2 * clmul (bitrev m a) (bitrev n b) := by
  intro m
  induction m with
  | zero =>
    intro a b n ha hb
    interval_cases a
    simp [clmul_zero_left, bitrev_zero_val]
  | succ m ih =>
    intro a b n ha hb
    rw [clmul_eq a b, show m + 1 + n = (m + n) + 1 by omega, bitrev_xor]
    have hc : clmul (a / 2) b < 2 ^ (m + n) := clmul_lt m n (by omega) hb
    have h2 : bitrev ((m + n) + 1) (2 * clmul (a / 2) b) = bitrev (m + n) (clmul (a / 2) b) := by
      rw [← shiftLeft_one]
      exact bitrev_shrink (m + n) 1 hc
    have h1 : bitrev ((m + n) + 1) (if a % 2 = 1 then b else 0) =
        (if a % 2 = 1 then (bitrev n b) <<< (m + 1) else 0) := by
      rcases (by omega : a % 2 = 0 ∨ a % 2 = 1) with hp | hp
      · simp [hp, bitrev_zero_val]
      · rw [if_pos hp, if_pos hp, show (m + n) + 1 = n + (m + 1) by omega, bitrev_pad _ hb]
    rw [h1, h2, ih (a / 2) b n (by omega) hb, bitrev_succ_xor, clmul_xor_left,
      clmul_shiftLeft_left, two_mul_xor]
    congr 1
    rcases (by omega : a % 2 = 0 ∨ a % 2 = 1) with hp | hp
    · simp [hp, clmul_zero_left]
    · rw [if_pos hp, hp, clmul_one_left, ← shiftLeft_succ_two]

/-! ### Lane-half extraction -/

theorem new_mod {high low : Nat} (hlo : low < 2 ^ 64) : (simd.new high low) % 2 ^ 64 = low := by
  unfold simd.new
  apply Nat.eq_of_testBit_eq
  intro i
  simp only [Nat.testBit_mod_two_pow, Nat.testBit_or, Nat.testBit_shiftLeft]
  by_cases hi : i < 64
  · rw [decide_eq_true hi, dfalse (by omega : ¬ 64 ≤ i)]
    simp
  · have hxf : low.testBit i = false := by
      apply Nat.testBit_lt_two_pow
      calc low < 2 ^ 64 := hlo
      _ ≤ 2 ^ i := Nat.pow_le_pow_right (by norm_num) (by omega)
    rw [dfalse hi, hxf]
    simp

theorem new_shr {high low : Nat} (hhi : high < 2 ^ 64) (hlo : low < 2 ^ 64) :
    (simd.new high low) >>> 64 = high := by
  unfold simd.new
  apply Nat.eq_of_testBit_eq
  intro i
  simp only [Nat.testBit_shiftRight, Nat.testBit_or, Nat.testBit_shiftLeft]
  have h1 : (low % 2 ^ 64).testBit (64 + i) = false := by
    apply Nat.testBit_lt_two_pow
    calc low % 2 ^ 64 ≤ low := Nat.mod_le _ _
    _ < 2 ^ 64 := hlo
    _ ≤ 2 ^ (64 + i) := Nat.pow_le_pow_right (by norm_num) (by omega)
  rw [h1, decide_eq_true (by omega : 64 ≤ 64 + i), Nat.mod_eq_of_lt hhi,
    show 64 + i - 64 = i by omega]
  simp

theorem shr64_lt {x : Nat} (hx : x < 2 ^ 128) : x >>> 64 < 2 ^ 64 := by
  rw [Nat.shiftRight_eq_div_pow]
  apply Nat.div_lt_of_lt_mul
  calc x < 2 ^ 128 := hx
  _ = 2 ^ 64 * 2 ^ 64 := by norm_num

theorem bitrev128_split {x : Nat} (hx : x < 2 ^ 128) :
    bitrev 128 x = (bitrev 64 (x % 2 ^ 64)) <<< 64 ^^^ bitrev 64 (x >>> 64) := by
  have h := bitrev_split 64 64 (show x < 2 ^ (64 + 64) by
    rw [show (64 : Nat) + 64 = 128 from rfl]
    exact hx)
  simpa using h

/-- Multiplying by a reduced power of `x` and doubling shifts the
polynomial by `nn + 1` places, modulo the generator. -/
theorem step_sem (nn z : Nat) :
    polyMod (2 * clmul (polyMod (2 ^ nn)) z) = polyMod (z <<< (nn + 1)) := by
  rw [← shiftLeft_one]
  have h1 : polyMod ((clmul (polyMod (2 ^ nn)) z) <<< 1) = polyMod ((clmul (2 ^ nn) z) <<< 1) :=
    polyMod_congr (pequiv_shl 1 (pequiv_clmul_right z (polyMod_equiv (2 ^ nn))))
  rw [h1, clmul_two_pow_left, shiftLeft_shiftLeft, Nat.add_comm nn 1, Nat.add_comm 1 nn]

/-! ### Semantic contracts of the lane primitives -/

/-- A `fold_16` by coefficients that reduce `x^nlo` and `x^nhi`
advances a 128-bit residue by `e` bits (modulo the generator), where
`nlo + 1 = 64 + e` and `nhi + 1 = e`. -/
theorem fold16_sem {klo khi nlo nhi e : Nat}
    (hklo : klo < 2 ^ 64) (hkhi : khi < 2 ^ 64)
    (hlo : polyMod (2 ^ nlo) = bitrev 64 klo)
    (hhi : polyMod (2 ^ nhi) = bitrev 64 khi)
    (helo : nlo + 1 = 64 + e) (hehi : nhi + 1 = e) :
    ∀ x < 2 ^ 128, polyMod (bitrev 128 (simd.fold_16 x (simd.new khi klo))) =
      polyMod ((bitrev 128 x) <<< e) := by
  intro x hx
  have ha : x % 2 ^ 64 < 2 ^ 64 := Nat.mod_lt _ (Nat.two_pow_pos 64)
  have hh : x >>> 64 < 2 ^ 64 := shr64_lt hx
  have hunf : simd.fold_16 x (simd.new khi klo) =
      clmul klo (x % 2 ^ 64) ^^^ clmul khi (x >>> 64) := by
    unfold simd.fold_16
    rw [new_mod hklo, new_shr hkhi hklo, poly_mul_eq_clmul, poly_mul_eq_clmul,
      Nat.mod_eq_of_lt hklo, Nat.mod_eq_of_lt hkhi, Nat.mod_eq_of_lt hh,
      Nat.mod_eq_of_lt hkhi]
  rw [hunf, bitrev_xor]
  have e1 : bitrev 128 (clmul klo (x % 2 ^ 64)) =
      2 * clmul (bitrev 64 klo) (bitrev 64 (x % 2 ^ 64)) := by
    have h := brev_clmul 64 klo (x % 2 ^ 64) 64 hklo ha
    rwa [show (64 : Nat) + 64 = 128 from rfl] at h
  have e2 : bitrev 128 (clmul khi (x >>> 64)) =
      2 * clmul (bitrev 64 khi) (bitrev 64 (x >>> 64)) := by
    have h := brev_clmul 64 khi (x >>> 64) 64 hkhi hh
    rwa [show (64 : Nat) + 64 = 128 from rfl] at h
  rw [e1, e2, polyMod_xor, ← hlo, ← hhi, step_sem, step_sem, helo, hehi,
    bitrev128_split hx, shiftLeft_xor_distrib, shiftLeft_shiftLeft, polyMod_xor]

/-- `fold_8` with coefficient `K_127` advances a 128-bit residue by 64
bits modulo the generator. -/
theorem fold8_sem : ∀ x < 2 ^ 128,
    polyMod (bitrev 128 (simd.fold_8 x table.K_127)) = polyMod ((bitrev 128 x) <<< 64) := by
  intro x hx
  have ha : x % 2 ^ 64 < 2 ^ 64 := Nat.mod_lt _ (Nat.two_pow_pos 64)
  have hh : x >>> 64 < 2 ^ 64 := shr64_lt hx
  have hK : table.K_127 < 2 ^ 64 := by decide
  have hunf : simd.fold_8 x table.K_127 = clmul table.K_127 (x % 2 ^ 64) ^^^ (x >>> 64) := by
    unfold simd.fold_8
    rw [poly_mul_eq_clmul, Nat.mod_eq_of_lt hK]
  rw [hunf, bitrev_xor]
  have e1 : bitrev 128 (clmul table.K_127 (x % 2 ^ 64)) =
      2 * clmul (bitrev 64 table.K_127) (bitrev 64 (x % 2 ^ 64)) := by
    have h := brev_clmul 64 table.K_127 (x % 2 ^ 64) 64 hK ha
    rwa [show (64 : Nat) + 64 = 128 from rfl] at h
  have e2 : bitrev 128 (x >>> 64) = (bitrev 64 (x >>> 64)) <<< 64 := by
    have h := bitrev_pad 64 (show x >>> 64 < 2 ^ 64 from hh)
    rwa [show (64 : Nat) + 64 = 128 from rfl] at h
  rw [e1, e2, polyMod_xor, ← pm_K127, step_sem,
    bitrev128_split hx, shiftLeft_xor_distrib, shiftLeft_shiftLeft, polyMod_xor,
    show (64 : Nat) + 64 = 127 + 1 from rfl]

theorem fold16_1024 : ∀ x < 2 ^ 128,
    polyMod (bitrev 128 (simd.fold_16 x pclmulqdq.coeff128)) =
      polyMod ((bitrev 128 x) <<< 1024) := by
  exact fold16_sem (by decide : table.K_1087 < 2 ^ 64) (by decide : table.K_1023 < 2 ^ 64)
    pm_K1087 pm_K1023 (show 1087 + 1 = 64 + 1024 by norm_num)
    (show 1023 + 1 = 1024 by norm_num)

theorem fold16_896 : ∀ x < 2 ^ 128,
    polyMod (bitrev 128 (simd.fold_16 x (simd.new table.K_895 table.K_959))) =
      polyMod ((bitrev 128 x) <<< 896) :=
  fold16_sem (by decide) (by decide) pm_K959 pm_K895
    (show 959 + 1 = 64 + 896 by norm_num) (show 895 + 1 = 896 by norm_num)

theorem fold16_768 : ∀ x < 2 ^ 128,
    polyMod (bitrev 128 (simd.fold_16 x (simd.new table.K_767 table.K_831))) =
      polyMod ((bitrev 128 x) <<< 768) :=
  fold16_sem (by decide) (by decide) pm_K831 pm_K767
    (show 831 + 1 = 64 + 768 by norm_num) (show 767 + 1 = 768 by norm_num)

theorem fold16_640 : ∀ x < 2 ^ 128,
    polyMod (bitrev 128 (simd.fold_16 x (simd.new table.K_639 table.K_703))) =
      polyMod ((bitrev 128 x) <<< 640) :=
  fold16_sem (by decide) (by decide) pm_K703 pm_K639
    (show 703 + 1 = 64 + 640 by norm_num) (show 639 + 1 = 640 by norm_num)

theorem fold16_512 : ∀ x < 2 ^ 128,
    polyMod (bitrev 128 (simd.fold_16 x (simd.new table.K_511 table.K_575))) =
      polyMod ((bitrev 128 x) <<< 512) :=
  fold16_sem (by decide) (by decide) pm_K575 pm_K511
    (show 575 + 1 = 64 + 512 by norm_num) (show 511 + 1 = 512 by norm_num)

theorem fold16_384 : ∀ x < 2 ^ 128,
    polyMod (bitrev 128 (simd.fold_16 x (simd.new table.K_383 table.K_447))) =
      polyMod ((bitrev 128 x) <<< 384) :=
  fold16_sem (by decide) (by decide) pm_K447 pm_K383
    (show 447 + 1 = 64 + 384 by norm_num) (show 383 + 1 = 384 by norm_num)

theorem fold16_256 : ∀ x < 2 ^ 128,
    polyMod (bitrev 128 (simd.fold_16 x (simd.new table.K_255 table.K_319))) =
      polyMod ((bitrev 128 x) <<< 256) :=
  fold16_sem (by decide) (by decide) pm_K319 pm_K255
    (show 319 + 1 = 64 + 256 by norm_num) (show 255 + 1 = 256 by norm_num)

theorem fold16_128 : ∀ x < 2 ^ 128,
    polyMod (bitrev 128 (simd.fold_16 x (simd.new table.K_127 table.K_191))) =
      polyMod ((bitrev 128 x) <<< 128) :=
  fold16_sem (by decide) (by decide) pm_K191 pm_K127
    (show 191 + 1 = 64 + 128 by norm_num) (show 127 + 1 = 128 by norm_num)

/-- Barrett reduction computes exactly the canonical 64-bit residue (in
the bit-reversed domain) of its 128-bit input. -/
theorem barrett_exact : ∀ y < 2 ^ 128,
    bitrev 64 (simd.barrett y table.POLY table.MU) = polyMod (bitrev 128 y) := by
  have hf : IsLin (fun y => bitrev 64 (simd.barrett y table.POLY table.MU)) :=
    ⟨by simp only [barrett_zero, bitrev_zero_val], fun x y => by
      simp only [barrett_xor, bitrev_xor]⟩
  have hg : IsLin (fun y => polyMod (bitrev 128 y)) :=
    ⟨by simp only [bitrev_zero_val, polyMod_zero], fun x y => by
      simp only [bitrev_xor, polyMod_xor]⟩
  apply lin_ext hf hg 128
  intro i hi
  show bitrev 64 (simd.barrett (2 ^ i) table.POLY table.MU) = polyMod (bitrev 128 (2 ^ i))
  rw [bitrev_two_pow hi, show (128 : Nat) - 1 - i = 127 - i by omega]
  revert hi
  revert i
  decide

/-! ### The table path computes the reflected byte-at-a-time CRC -/

theorem long_div_step_lt (t : Nat) : long_div_step t < 2 ^ 64 := by
  unfold long_div_step
  apply Nat.xor_lt_two_pow (Nat.mod_lt _ (by norm_num))
  split
  · decide
  · decide

theorem long_div_step_iter_lt (n : Nat) {t : Nat} (ht : t < 2 ^ 64) :
    long_div_step^[n] t < 2 ^ 64 := by
  induction n with
  | zero => simpa using ht
  | succ n ih =>
    rw [Function.iterate_succ_apply']
    exact long_div_step_lt _

/-- In the bit-reversed view, one long-division step of `build_table.rs`
is one reflected CRC bit step. -/
theorem crcBit_bitrev_conj : ∀ t < 2 ^ 64, bitrev 64 (long_div_step t) = crcBit (bitrev 64 t) := by
  have hf : IsLin (fun t => bitrev 64 (long_div_step t)) :=
    ⟨by simp only [long_div_step_zero, bitrev_zero_val], fun x y => by
      simp only [long_div_step_xor, bitrev_xor]⟩
  have hg : IsLin (fun t => crcBit (bitrev 64 t)) :=
    ⟨by simp only [bitrev_zero_val, crcBit_zero], fun x y => by
      simp only [bitrev_xor, crcBit_xor]⟩
  exact lin_ext hf hg 64 (by decide)

theorem conj_iter : ∀ n : Nat, ∀ t < 2 ^ 64,
    bitrev 64 (long_div_step^[n] t) = crcBitN n (bitrev 64 t) := by
  intro n
  induction n with
  | zero => intro t ht; rfl
  | succ n ih =>
    intro t ht
    rw [Function.iterate_succ_apply', crcBit_bitrev_conj _ (long_div_step_iter_lt n ht), ih t ht]
    simp only [crcBitN, Function.iterate_succ_apply']

theorem and_255_eq_mod (x : Nat) : x &&& 0xFF = x % 256 := by
  apply Nat.eq_of_testBit_eq
  intro i
  rw [Nat.testBit_and, show (256 : Nat) = 2 ^ 8 by norm_num, Nat.testBit_mod_two_pow]
  by_cases hi : i < 8
  · rw [decide_eq_true hi]
    have hf : (0xFF : Nat).testBit i = true := by
      interval_cases i <;> decide
    rw [hf]
    simp
  · rw [dfalse hi]
    have hf : (0xFF : Nat).testBit i = false := by
      apply Nat.testBit_lt_two_pow
      calc (0xFF : Nat) < 2 ^ 8 := by norm_num
      _ ≤ 2 ^ i := Nat.pow_le_pow_right (by norm_num) (by omega)
    rw [hf]
    simp

theorem bitrev_mod8 (v : Nat) : bitrev 8 (v % 256) = bitrev 8 v := by
  rw [show (256 : Nat) = 2 ^ 8 by norm_num]
  apply Nat.eq_of_testBit_eq
  intro i
  rw [testBit_bitrev, testBit_bitrev]
  by_cases hi : i < 8
  · rw [decide_eq_true hi, Nat.testBit_mod_two_pow, decide_eq_true (show 8 - 1 - i < 8 by omega)]
    simp
  · rw [dfalse hi]
    simp

/-- Each table entry is a power of the reflected bit step applied to the
low byte of its index: `TABLE_j[b] = crcBit^[8*j+8] b`. -/
theorem entry_eq_crcBitN (j b : Nat) : table.entry j b = crcBitN (8 * j + 8) (b % 256) := by
  unfold table.entry
  rw [← bitrev_mod8 b]
  have hmod : b % 256 < 2 ^ 8 := Nat.mod_lt _ (by norm_num)
  have hpad : (bitrev 8 (b % 256)) <<< 56 = bitrev 64 (b % 256) := by
    have h := bitrev_pad 56 hmod
    norm_num at h
    exact h.symm
  rw [hpad, conj_iter _ _ (bitrev_lt 64 _), bitrev_bitrev (lt_trans hmod (by norm_num))]

theorem crcBit_double (v : Nat) : crcBit (2 * v) = v := by
  unfold crcBit
  have h1 : (2 * v).testBit 0 = false := by
    rw [Nat.testBit_zero, dfalse (by omega : ¬ 2 * v % 2 = 1)]
  have h2 : (2 * v) >>> 1 = v := by
    rw [Nat.shiftRight_eq_div_pow, pow_one]
    omega
  rw [h1, h2]
  simp

theorem crcBitN_crcBitN (m n v : Nat) : crcBitN m (crcBitN n v) = crcBitN (m + n) v := by
  simp only [crcBitN]
  exact (Function.iterate_add_apply crcBit m n v).symm

theorem crcBitN_shl : ∀ n v : Nat, crcBitN n (v <<< n) = v := by
  intro n
  induction n with
  | zero => intro v; simp [crcBitN]
  | succ n ih =>
    intro v
    simp only [crcBitN, Function.iterate_succ_apply]
    rw [shiftLeft_succ_two, crcBit_double]
    exact ih v

theorem crcBitN_shl_absorb (m n v : Nat) : crcBitN (m + n) (v <<< n) = crcBitN m v := by
  rw [← crcBitN_crcBitN, crcBitN_shl]

theorem byteStepR_eq (s b : Nat) : byteStepR s b = crcBitN 8 s ^^^ crcBitN 8 b := by
  unfold byteStepR
  exact crcBitN_xor 8 s b

theorem shiftRight_shiftRight (x m n : Nat) : (x >>> m) >>> n = x >>> (m + n) := by
  simp [Nat.shiftRight_eq_div_pow, Nat.div_div_eq_div_mul, pow_add]

/-- The one-byte tail step of the missing `table.rs` equals one
reflected CRC byte step. -/
theorem tail_step_eq {b : Nat} (hb : b < 256) (s : Nat) :
    table.tail_step s b = byteStepR s b := by
  unfold table.tail_step
  rw [and_255_eq_mod, entry_eq_crcBitN, Nat.mod_eq_of_lt (Nat.mod_lt _ (by norm_num))]
  have hb8 : b >>> 8 = 0 := by
    rw [Nat.shiftRight_eq_div_pow]
    exact Nat.div_eq_of_lt hb
  have hrhs : byteStepR s b = crcBitN 8 ((s ^^^ b) % 256) ^^^ (s >>> 8) := by
    unfold byteStepR
    conv_lhs => rw [xor_low_high (s ^^^ b) 8]
    rw [crcBitN_xor, crcBitN_shl, shiftRight_xor_distrib, hb8, Nat.xor_zero]
    norm_num
  rw [hrhs, Nat.xor_comm (s >>> 8)]

theorem foldl_tail_step_eq : ∀ B : List Nat, (∀ b ∈ B, b < 256) → ∀ s : Nat,
    B.foldl table.tail_step s = crcFold s B := by
  intro B
  induction B with
  | nil => intro _ s; rfl
  | cons b B ih =>
    intro hB s
    simp only [List.foldl_cons]
    rw [tail_step_eq (hB b (by simp)) s]
    exact ih (fun x hx => hB x (by simp [hx])) (byteStepR s b)

theorem crcBit_lt {v : Nat} (hv : v < 2 ^ 64) : crcBit v < 2 ^ 64 := by
  unfold crcBit
  apply Nat.xor_lt_two_pow
  · rw [Nat.shiftRight_eq_div_pow]
    exact lt_of_le_of_lt (Nat.div_le_self _ _) hv
  · split
    · decide
    · decide

theorem crcBitN_lt (n : Nat) {v : Nat} (hv : v < 2 ^ 64) : crcBitN n v < 2 ^ 64 := by
  induction n with
  | zero => simpa [crcBitN] using hv
  | succ n ih =>
    simp only [crcBitN, Function.iterate_succ_apply'] at ih ⊢
    exact crcBit_lt ih

theorem byteStepR_lt {s b : Nat} (hs : s < 2 ^ 64) (hb : b < 256) : byteStepR s b < 2 ^ 64 := by
  unfold byteStepR
  exact crcBitN_lt 8 (Nat.xor_lt_two_pow hs (by omega))

theorem crcFold_lt : ∀ B : List Nat, (∀ b ∈ B, b < 256) → ∀ {s : Nat}, s < 2 ^ 64 →
    crcFold s B < 2 ^ 64 := by
  intro B
  induction B with
  | nil => intro _ s hs; simpa [crcFold] using hs
  | cons b B ih =>
    intro hB s hs
    show crcFold (byteStepR s b) B < 2 ^ 64
    exact ih (fun x hx => hB x (by simp [hx])) (byteStepR_lt hs (hB b (by simp)))

theorem peel_byte (m s : Nat) :
    crcBitN (m + 8) s = crcBitN (m + 8) (s % 256) ^^^ crcBitN m (s >>> 8) := by
  conv_lhs => rw [xor_low_high s 8]
  rw [crcBitN_xor, crcBitN_shl_absorb]
  norm_num

/-- Little-endian byte decomposition of a 64-bit state under
`crcBitN 128`. -/
theorem state_bytes_decomp {s : Nat} (hs : s < 2 ^ 64) :
    crcBitN 128 s =
      crcBitN 128 (s % 256) ^^^ crcBitN 120 ((s >>> 8) % 256) ^^^
      crcBitN 112 ((s >>> 16) % 256) ^^^ crcBitN 104 ((s >>> 24) % 256) ^^^
      crcBitN 96 ((s >>> 32) % 256) ^^^ crcBitN 88 ((s >>> 40) % 256) ^^^
      crcBitN 80 ((s >>> 48) % 256) ^^^ crcBitN 72 ((s >>> 56) % 256) := by
  have h64 : s >>> 64 = 0 := by
    rw [Nat.shiftRight_eq_div_pow]
    exact Nat.div_eq_of_lt hs
  have p1 : crcBitN 128 s = crcBitN 128 (s % 256) ^^^ crcBitN 120 (s >>> 8) := by
    have h := peel_byte 120 s
    norm_num at h
    exact h
  have p2 : crcBitN 120 (s >>> 8) = crcBitN 120 ((s >>> 8) % 256) ^^^ crcBitN 112 (s >>> 16) := by
    have h := peel_byte 112 (s >>> 8)
    rw [shiftRight_shiftRight] at h
    norm_num at h
    exact h
  have p3 : crcBitN 112 (s >>> 16) = crcBitN 112 ((s >>> 16) % 256) ^^^ crcBitN 104 (s >>> 24) := by
    have h := peel_byte 104 (s >>> 16)
    rw [shiftRight_shiftRight] at h
    norm_num at h
    exact h
  have p4 : crcBitN 104 (s >>> 24) = crcBitN 104 ((s >>> 24) % 256) ^^^ crcBitN 96 (s >>> 32) := by
    have h := peel_byte 96 (s >>> 24)
    rw [shiftRight_shiftRight] at h
    norm_num at h
    exact h
  have p5 : crcBitN 96 (s >>> 32) = crcBitN 96 ((s >>> 32) % 256) ^^^ crcBitN 88 (s >>> 40) := by
    have h := peel_byte 88 (s >>> 32)
    rw [shiftRight_shiftRight] at h
    norm_num at h
    exact h
  have p6 : crcBitN 88 (s >>> 40) = crcBitN 88 ((s >>> 40) % 256) ^^^ crcBitN 80 (s >>> 48) := by
    have h := peel_byte 80 (s >>> 40)
    rw [shiftRight_shiftRight] at h
    norm_num at h
    exact h
  have p7 : crcBitN 80 (s >>> 48) = crcBitN 80 ((s >>> 48) % 256) ^^^ crcBitN 72 (s >>> 56) := by
    have h := peel_byte 72 (s >>> 48)
    rw [shiftRight_shiftRight] at h
    norm_num at h
    exact h
  have p8 : crcBitN 72 (s >>> 56) = crcBitN 72 ((s >>> 56) % 256) ^^^ crcBitN 64 (s >>> 64) := by
    have h := peel_byte 64 (s >>> 56)
    rw [shiftRight_shiftRight] at h
    norm_num at h
    exact h
  rw [p1, p2, p3, p4, p5, p6, p7, p8, h64, crcBitN_zero_val]
  simp [Nat.xor_assoc]


set_option maxHeartbeats 2000000 in
/-- One 16-byte table block step equals sixteen reflected byte steps. -/
theorem block_step_eq_crcFold {s : Nat} (hs : s < 2 ^ 64) {b0 b1 b2 b3 b4 b5 b6 b7 b8 b9 b10 b11 b12 b13 b14 b15 : Nat}
    (h0 : b0 < 256) (h1 : b1 < 256) (h2 : b2 < 256) (h3 : b3 < 256)
    (h4 : b4 < 256) (h5 : b5 < 256) (h6 : b6 < 256) (h7 : b7 < 256)
    (h8 : b8 < 256) (h9 : b9 < 256) (h10 : b10 < 256) (h11 : b11 < 256)
    (h12 : b12 < 256) (h13 : b13 < 256) (h14 : b14 < 256) (h15 : b15 < 256) :
    table.block_step s [b0, b1, b2, b3, b4, b5, b6, b7, b8, b9, b10, b11, b12, b13, b14, b15] = crcFold s [b0, b1, b2, b3, b4, b5, b6, b7, b8, b9, b10, b11, b12, b13, b14, b15] := by
  have hxb : ∀ x b : Nat, b < 256 → (b ^^^ x % 256) % 256 = b ^^^ x % 256 := by
    intro x b hb
    apply Nat.mod_eq_of_lt
    have hx : x % 256 < 256 := Nat.mod_lt _ (by norm_num)
    exact Nat.xor_lt_two_pow (show b < 2 ^ 8 from hb) (show x % 256 < 2 ^ 8 from hx)
  simp only [table.block_step, table.block_go, and_255_eq_mod, entry_eq_crcBitN]
  norm_num
  simp only [hxb s b0 h0, hxb (s >>> 8) b1 h1, hxb (s >>> 16) b2 h2, hxb (s >>> 24) b3 h3, hxb (s >>> 32) b4 h4, hxb (s >>> 40) b5 h5, hxb (s >>> 48) b6 h6, hxb (s >>> 56) b7 h7, Nat.mod_eq_of_lt h8, Nat.mod_eq_of_lt h9, Nat.mod_eq_of_lt h10, Nat.mod_eq_of_lt h11, Nat.mod_eq_of_lt h12, Nat.mod_eq_of_lt h13, Nat.mod_eq_of_lt h14, Nat.mod_eq_of_lt h15]
  simp only [crcFold, List.foldl_cons, List.foldl_nil, byteStepR_eq, crcBitN_xor, crcBitN_crcBitN]
  norm_num
  rw [state_bytes_decomp hs]
  simp [Nat.xor_assoc, Nat.xor_comm, xor_left_comm]

/-- The scalar table update is the reflected byte-at-a-time CRC fold. -/
theorem table_update_eq_crcFold : ∀ B : List Nat, (∀ b ∈ B, b < 256) → ∀ s < 2 ^ 64,
    table.update s B = crcFold s B := by
  suffices H : ∀ n : Nat, ∀ B : List Nat, B.length ≤ n → (∀ b ∈ B, b < 256) →
      ∀ s < 2 ^ 64, table.update s B = crcFold s B by
    intro B hB s hs
    exact H B.length B (le_refl _) hB s hs
  intro n
  induction n with
  | zero =>
    intro B hlen hB s hs
    cases B with
    | nil =>
      rw [table.update_eq]
      simp [crcFold]
    | cons b T =>
      simp only [List.length_cons] at hlen
      omega
  | succ n ih =>
    intro B hlen hB s hs
    rw [table.update_eq]
    by_cases h16 : 16 ≤ B.length
    · rw [if_pos h16]
      rcases B with _ | ⟨b0, B⟩
      · simp at h16
      rcases B with _ | ⟨b1, B⟩
      · simp at h16
      rcases B with _ | ⟨b2, B⟩
      · simp at h16
      rcases B with _ | ⟨b3, B⟩
      · simp at h16
      rcases B with _ | ⟨b4, B⟩
      · simp at h16
      rcases B with _ | ⟨b5, B⟩
      · simp at h16
      rcases B with _ | ⟨b6, B⟩
      · simp at h16
      rcases B with _ | ⟨b7, B⟩
      · simp at h16
      rcases B with _ | ⟨b8, B⟩
      · simp at h16
      rcases B with _ | ⟨b9, B⟩
      · simp at h16
      rcases B with _ | ⟨b10, B⟩
      · simp at h16
      rcases B with _ | ⟨b11, B⟩
      · simp at h16
      rcases B with _ | ⟨b12, B⟩
      · simp at h16
      rcases B with _ | ⟨b13, B⟩
      · simp at h16
      rcases B with _ | ⟨b14, B⟩
      · simp at h16
      rcases B with _ | ⟨b15, B⟩
      · simp at h16
      have h0 : b0 < 256 := hB b0 (by simp)
      have h1 : b1 < 256 := hB b1 (by simp)
      have h2 : b2 < 256 := hB b2 (by simp)
      have h3 : b3 < 256 := hB b3 (by simp)
      have h4 : b4 < 256 := hB b4 (by simp)
      have h5 : b5 < 256 := hB b5 (by simp)
      have h6 : b6 < 256 := hB b6 (by simp)
      have h7 : b7 < 256 := hB b7 (by simp)
      have h8 : b8 < 256 := hB b8 (by simp)
      have h9 : b9 < 256 := hB b9 (by simp)
      have h10 : b10 < 256 := hB b10 (by simp)
      have h11 : b11 < 256 := hB b11 (by simp)
      have h12 : b12 < 256 := hB b12 (by simp)
      have h13 : b13 < 256 := hB b13 (by simp)
      have h14 : b14 < 256 := hB b14 (by simp)
      have h15 : b15 < 256 := hB b15 (by simp)
      have hlen2 : B.length ≤ n := by
        simp only [List.length_cons] at hlen
        omega
      have hmem : ∀ b ∈ B, b < 256 := fun b hb => hB b (by simp [hb])
      have hblk : ∀ b ∈ [b0, b1, b2, b3, b4, b5, b6, b7, b8, b9, b10, b11, b12, b13, b14, b15], b < 256 := by
        intro b hb
        fin_cases hb <;> assumption
      have hstate : crcFold s [b0, b1, b2, b3, b4, b5, b6, b7, b8, b9, b10, b11, b12, b13, b14, b15] < 2 ^ 64 := crcFold_lt _ hblk hs
      rw [show List.take 16 (b0::b1::b2::b3::b4::b5::b6::b7::b8::b9::b10::b11::b12::b13::b14::b15::B) = [b0, b1, b2, b3, b4, b5, b6, b7, b8, b9, b10, b11, b12, b13, b14, b15] from rfl,
        show List.drop 16 (b0::b1::b2::b3::b4::b5::b6::b7::b8::b9::b10::b11::b12::b13::b14::b15::B) = B from rfl]
      rw [block_step_eq_crcFold hs h0 h1 h2 h3 h4 h5 h6 h7 h8 h9 h10 h11 h12 h13 h14 h15]
      rw [ih B hlen2 hmem _ hstate]
      rw [show (b0::b1::b2::b3::b4::b5::b6::b7::b8::b9::b10::b11::b12::b13::b14::b15::B) = [b0, b1, b2, b3, b4, b5, b6, b7, b8, b9, b10, b11, b12, b13, b14, b15] ++ B from rfl]
      simp only [crcFold]
      rw [List.foldl_append]
    · rw [if_neg h16]
      exact foldl_tail_step_eq B hB s

/-! ### The reference CRC in the reflected domain -/

theorem brev8_shl56_lt (b : Nat) : (bitrev 8 b) <<< 56 < 2 ^ 64 := by
  have h : bitrev 8 b < 256 := bitrev_lt 8 b
  rw [Nat.shiftLeft_eq]
  calc bitrev 8 b * 2 ^ 56 ≤ 255 * 2 ^ 56 := Nat.mul_le_mul_right _ (by omega)
  _ < 2 ^ 64 := by norm_num

theorem crcN_byte_lt {t : Nat} (ht : t < 2 ^ 64) (b : Nat) : crcN_byte t b < 2 ^ 64 := by
  unfold crcN_byte
  exact long_div_step_iter_lt 8 (Nat.xor_lt_two_pow ht (brev8_shl56_lt b))

theorem foldl_crcN_byte_conj : ∀ B : List Nat, (∀ b ∈ B, b < 256) → ∀ t < 2 ^ 64,
    bitrev 64 (B.foldl crcN_byte t) = crcFold (bitrev 64 t) B := by
  intro B
  induction B with
  | nil => intro _ t ht; rfl
  | cons b B ih =>
    intro hB t ht
    simp only [List.foldl_cons]
    rw [ih (fun x hx => hB x (by simp [hx])) _ (crcN_byte_lt ht b)]
    rw [show crcFold (bitrev 64 t) (b :: B) = crcFold (byteStepR (bitrev 64 t) b) B from rfl]
    congr 1
    unfold crcN_byte byteStepR
    rw [conj_iter 8 _ (Nat.xor_lt_two_pow ht (brev8_shl56_lt b)), bitrev_xor]
    have hb : b < 256 := hB b (by simp)
    have hbr : bitrev 64 ((bitrev 8 b) <<< 56) = b := by
      have h := bitrev_shrink 8 56 (bitrev_lt 8 b)
      norm_num at h
      rw [h, bitrev_bitrev (show b < 2 ^ 8 from hb)]
    rw [hbr]

/-- The reference CRC is the reflected fold from the all-ones state,
XORed with all-ones. -/
theorem reference_eq_crcFold (B : List Nat) (hB : ∀ b ∈ B, b < 256) :
    reference_crc64_ecma B = crcFold (2 ^ 64 - 1) B ^^^ (2 ^ 64 - 1) := by
  unfold reference_crc64_ecma
  rw [foldl_crcN_byte_conj B hB _ (by norm_num)]
  rw [show bitrev 64 (2 ^ 64 - 1) = 2 ^ 64 - 1 by decide]

/-! ### Closed polynomial forms for the normal-domain iteration -/

theorem shl_congr {a b : Nat} (h : polyMod a = polyMod b) (k : Nat) :
    polyMod (a <<< k) = polyMod (b <<< k) := by
  rw [← polyMod_shl_polyMod a k, h, polyMod_shl_polyMod]

theorem D_polyMod {t : Nat} (ht : t < 2 ^ 64) : long_div_step t = polyMod (t <<< 1) := by
  have hequiv : pequiv (long_div_step t) (t <<< 1) := by
    unfold long_div_step
    cases hb : t.testBit 63 with
    | false =>
      rw [if_neg (by simp [hb])]
      have h63 : t < 2 ^ 63 := top_clear_lt (show t < 2 ^ (63 + 1) from ht) hb
      have hlt : t <<< 1 < 2 ^ 64 := by
        rw [shiftLeft_one]
        have h2 : 2 * t < 2 * 2 ^ 63 := by omega
        calc 2 * t < 2 * 2 ^ 63 := h2
        _ = 2 ^ 64 := by norm_num
      rw [Nat.xor_zero, Nat.mod_eq_of_lt hlt]
      exact pequiv_refl _
    | true =>
      rw [if_pos (by simp [hb])]
      have ha : t <<< 1 < 2 ^ 65 := by
        rw [shiftLeft_one]
        have h2 : 2 * t < 2 * 2 ^ 64 := by omega
        calc 2 * t < 2 * 2 ^ 64 := h2
        _ = 2 ^ 65 := by norm_num
      have hb64 : (t <<< 1).testBit 64 = true := by
        rw [Nat.testBit_shiftLeft]
        simpa using hb
      have hmod : (t <<< 1) % 2 ^ 64 = (t <<< 1) ^^^ 2 ^ 64 := by
        have h := mod_pow_succ_xor (t <<< 1) 64
        rw [Nat.mod_eq_of_lt (show t <<< 1 < 2 ^ (64 + 1) from ha), hb64, if_pos rfl] at h
        conv_rhs => rw [h]
        rw [Nat.xor_assoc, Nat.xor_self, Nat.xor_zero]
      refine ⟨1, ?_⟩
      rw [clmul_one_left, hmod]
      have hG : (2 : Nat) ^ 64 ^^^ NPOLY = Gpoly := by decide
      rw [← hG]
      simp [Nat.xor_assoc, Nat.xor_comm, xor_left_comm, xor_cancel_left, Nat.xor_self]
  rw [← polyMod_eq_self (long_div_step_lt t)]
  exact polyMod_congr hequiv

theorem Dn_polyMod : ∀ n : Nat, ∀ t < 2 ^ 64, long_div_step^[n] t = polyMod (t <<< n) := by
  intro n
  induction n with
  | zero => intro t ht; simp [polyMod_eq_self ht]
  | succ n ih =>
    intro t ht
    rw [Function.iterate_succ_apply', ih t ht, D_polyMod (polyMod_lt _), polyMod_shl_polyMod,
      shiftLeft_shiftLeft]

theorem msgPoly_acc : ∀ (B : List Nat) (a : Nat),
    B.foldl (fun acc b => (acc <<< 8) ^^^ bitrev 8 b) a = (a <<< (8 * B.length)) ^^^ msgPoly B := by
  intro B
  induction B with
  | nil => intro a; simp [msgPoly]
  | cons b B ih =>
    intro a
    show List.foldl _ ((a <<< 8) ^^^ bitrev 8 b) B = _
    rw [ih ((a <<< 8) ^^^ bitrev 8 b)]
    have hm : msgPoly (b :: B) = ((bitrev 8 b) <<< (8 * B.length)) ^^^ msgPoly B := by
      show List.foldl _ ((0 <<< 8) ^^^ bitrev 8 b) B = _
      rw [ih ((0 <<< 8) ^^^ bitrev 8 b)]
      simp [Nat.zero_shiftLeft]
    rw [hm, shiftLeft_xor_distrib, shiftLeft_shiftLeft,
      show 8 + 8 * B.length = 8 * (B.length + 1) by ring]
    simp [List.length_cons, Nat.xor_assoc]

theorem msgPoly_cons (b : Nat) (B : List Nat) :
    msgPoly (b :: B) = ((bitrev 8 b) <<< (8 * B.length)) ^^^ msgPoly B := by
  show List.foldl _ ((0 <<< 8) ^^^ bitrev 8 b) B = _
  rw [msgPoly_acc B ((0 <<< 8) ^^^ bitrev 8 b)]
  simp [Nat.zero_shiftLeft]

theorem msgPoly_append (A C : List Nat) :
    msgPoly (A ++ C) = ((msgPoly A) <<< (8 * C.length)) ^^^ msgPoly C := by
  show List.foldl _ 0 (A ++ C) = _
  rw [List.foldl_append]
  exact msgPoly_acc C _

theorem crcN_byte_closed {t : Nat} (ht : t < 2 ^ 64) (b : Nat) :
    crcN_byte t b = polyMod ((t <<< 8) ^^^ ((bitrev 8 b) <<< 64)) := by
  unfold crcN_byte
  rw [Dn_polyMod 8 _ (Nat.xor_lt_two_pow ht (brev8_shl56_lt b))]
  rw [shiftLeft_xor_distrib, shiftLeft_shiftLeft]

theorem foldl_crcN_byte_closed : ∀ B : List Nat, ∀ t < 2 ^ 64,
    B.foldl crcN_byte t = polyMod ((t <<< (8 * B.length)) ^^^ ((msgPoly B) <<< 64)) := by
  intro B
  induction B with
  | nil =>
    intro t ht
    simp [msgPoly, polyMod_eq_self ht]
  | cons b B ih =>
    intro t ht
    simp only [List.foldl_cons]
    rw [ih _ (crcN_byte_lt ht b), crcN_byte_closed ht b]
    rw [polyMod_xor, polyMod_shl_polyMod, ← polyMod_xor]
    rw [shiftLeft_xor_distrib, shiftLeft_shiftLeft, shiftLeft_shiftLeft]
    rw [msgPoly_cons, shiftLeft_xor_distrib, shiftLeft_shiftLeft]
    rw [show 8 + 8 * B.length = 8 * (B.length + 1) by ring,
      show 64 + 8 * B.length = 8 * B.length + 64 by ring]
    simp [List.length_cons, Nat.xor_assoc]

theorem crcFold_closed (B : List Nat) (hB : ∀ b ∈ B, b < 256) {s : Nat} (hs : s < 2 ^ 64) :
    crcFold s B =
      bitrev 64 (polyMod (((bitrev 64 s) <<< (8 * B.length)) ^^^ ((msgPoly B) <<< 64))) := by
  have h := foldl_crcN_byte_conj B hB (bitrev 64 s) (bitrev_lt 64 s)
  rw [bitrev_bitrev hs] at h
  rw [← h, foldl_crcN_byte_closed B _ (bitrev_lt 64 s)]

/-! ### Lane loading and chunking -/

theorem loadLane_lt : ∀ bs : List Nat, (∀ b ∈ bs, b < 256) →
    pclmulqdq.loadLane bs < 2 ^ (8 * bs.length) := by
  intro bs
  induction bs with
  | nil => intro _; simp [pclmulqdq.loadLane]
  | cons b bs ih =>
    intro hB
    show b ^^^ ((pclmulqdq.loadLane bs) <<< 8) < _
    have h1 : b < 2 ^ (8 * (b :: bs).length) := by
      have hb : b < 256 := hB b (by simp)
      have h2 : (256 : Nat) ≤ 2 ^ (8 * (b :: bs).length) := by
        rw [show (256 : Nat) = 2 ^ 8 by norm_num, List.length_cons]
        exact Nat.pow_le_pow_right (by norm_num) (by omega)
      omega
    have h3 : (pclmulqdq.loadLane bs) <<< 8 < 2 ^ (8 * (b :: bs).length) := by
      have h : (pclmulqdq.loadLane bs) <<< 8 < 2 ^ (8 * bs.length + 8) :=
        Nat.shiftLeft_lt (ih (fun x hx => hB x (by simp [hx])))
      rw [List.length_cons, show 8 * (bs.length + 1) = 8 * bs.length + 8 by ring]
      exact h
    exact Nat.xor_lt_two_pow h1 h3

theorem loadLane_sem : ∀ bs : List Nat, (∀ b ∈ bs, b < 256) →
    bitrev (8 * bs.length) (pclmulqdq.loadLane bs) = msgPoly bs := by
  intro bs
  induction bs with
  | nil => intro _; simp [pclmulqdq.loadLane, msgPoly, bitrev]
  | cons b bs ih =>
    intro hB
    show bitrev (8 * (b :: bs).length) (b ^^^ ((pclmulqdq.loadLane bs) <<< 8)) = _
    rw [List.length_cons, show 8 * (bs.length + 1) = 8 + 8 * bs.length by ring, bitrev_xor]
    have hb : b < 2 ^ 8 := hB b (by simp)
    rw [bitrev_pad (8 * bs.length) hb]
    have hsh : bitrev (8 + 8 * bs.length) ((pclmulqdq.loadLane bs) <<< 8) =
        bitrev (8 * bs.length) (pclmulqdq.loadLane bs) := by
      have h := bitrev_shrink (8 * bs.length) 8 (loadLane_lt bs (fun x hx => hB x (by simp [hx])))
      rw [Nat.add_comm (8 * bs.length) 8] at h
      exact h
    rw [hsh, ih (fun x hx => hB x (by simp [hx])), msgPoly_cons]

theorem lanesPoly_acc : ∀ (x : List Nat) (a : Nat),
    x.foldl (fun acc v => (acc <<< 128) ^^^ bitrev 128 v) a =
      (a <<< (128 * x.length)) ^^^ lanesPoly x := by
  intro x
  induction x with
  | nil => intro a; simp [lanesPoly]
  | cons v x ih =>
    intro a
    show List.foldl _ ((a <<< 128) ^^^ bitrev 128 v) x = _
    rw [ih ((a <<< 128) ^^^ bitrev 128 v)]
    have hm : lanesPoly (v :: x) = ((bitrev 128 v) <<< (128 * x.length)) ^^^ lanesPoly x := by
      show List.foldl _ ((0 <<< 128) ^^^ bitrev 128 v) x = _
      rw [ih ((0 <<< 128) ^^^ bitrev 128 v)]
      simp [Nat.zero_shiftLeft]
    rw [hm, shiftLeft_xor_distrib, shiftLeft_shiftLeft,
      show 128 + 128 * x.length = 128 * (x.length + 1) by ring]
    simp [List.length_cons, Nat.xor_assoc]

theorem lanesPoly_cons (v : Nat) (x : List Nat) :
    lanesPoly (v :: x) = ((bitrev 128 v) <<< (128 * x.length)) ^^^ lanesPoly x := by
  show List.foldl _ ((0 <<< 128) ^^^ bitrev 128 v) x = _
  rw [lanesPoly_acc x ((0 <<< 128) ^^^ bitrev 128 v)]
  simp [Nat.zero_shiftLeft]

theorem chunksLanesPoly_cons (y : List Nat) (ys : List (List Nat)) :
    chunksLanesPoly (y :: ys) = ((lanesPoly y) <<< (1024 * ys.length)) ^^^ chunksLanesPoly ys := by
  have hacc : ∀ (zs : List (List Nat)) (a : Nat),
      zs.foldl (fun acc z => (acc <<< 1024) ^^^ lanesPoly z) a =
        (a <<< (1024 * zs.length)) ^^^ chunksLanesPoly zs := by
    intro zs
    induction zs with
    | nil => intro a; simp [chunksLanesPoly]
    | cons z zs ih =>
      intro a
      show List.foldl _ ((a <<< 1024) ^^^ lanesPoly z) zs = _
      rw [ih ((a <<< 1024) ^^^ lanesPoly z)]
      have hm : chunksLanesPoly (z :: zs) =
          ((lanesPoly z) <<< (1024 * zs.length)) ^^^ chunksLanesPoly zs := by
        show List.foldl _ ((0 <<< 1024) ^^^ lanesPoly z) zs = _
        rw [ih ((0 <<< 1024) ^^^ lanesPoly z)]
        simp [Nat.zero_shiftLeft]
      rw [hm, shiftLeft_xor_distrib, shiftLeft_shiftLeft,
        show 1024 + 1024 * zs.length = 1024 * (zs.length + 1) by ring]
      simp [List.length_cons, Nat.xor_assoc]
  show List.foldl _ ((0 <<< 1024) ^^^ lanesPoly y) ys = _
  rw [hacc ys ((0 <<< 1024) ^^^ lanesPoly y)]
  simp [Nat.zero_shiftLeft]

/-! ### Chunking lemmas -/

theorem chunksF_mono {k : Nat} (hk : 0 < k) : ∀ f g : Nat, ∀ bs : List Nat,
    bs.length ≤ f → bs.length ≤ g → pclmulqdq.chunksF k f bs = pclmulqdq.chunksF k g bs := by
  intro f
  induction f with
  | zero =>
    intro g bs hf hg
    have hbs : bs = [] := List.length_eq_zero.mp (by omega)
    subst hbs
    cases g with
    | zero => rfl
    | succ g => simp [pclmulqdq.chunksF]
  | succ f ih =>
    intro g bs hf hg
    cases g with
    | zero =>
      have hbs : bs = [] := List.length_eq_zero.mp (by omega)
      subst hbs
      simp [pclmulqdq.chunksF]
    | succ g =>
      simp only [pclmulqdq.chunksF]
      by_cases he : bs.isEmpty = true
      · simp [he]
      · have hne : bs.length ≠ 0 := by
          intro h0
          exact he (by simpa [List.isEmpty_iff] using List.length_eq_zero.mp h0)
        rw [if_neg he, if_neg he,
          ih g (bs.drop k) (by rw [List.length_drop]; omega) (by rw [List.length_drop]; omega)]

theorem chunksOf_eq {k : Nat} (hk : 0 < k) (bs : List Nat) :
    pclmulqdq.chunksOf k bs =
      if bs.isEmpty then [] else bs.take k :: pclmulqdq.chunksOf k (bs.drop k) := by
  cases bs with
  | nil => simp [pclmulqdq.chunksOf, pclmulqdq.chunksF]
  | cons b T =>
    show pclmulqdq.chunksF k ((b :: T).length) (b :: T) = _
    rw [List.length_cons]
    simp only [pclmulqdq.chunksF, List.isEmpty_cons]
    rw [if_neg (by simp), if_neg (by simp)]
    rw [show pclmulqdq.chunksOf k ((b :: T).drop k) =
      pclmulqdq.chunksF k ((b :: T).drop k).length ((b :: T).drop k) from rfl]
    rw [chunksF_mono hk T.length ((b :: T).drop k).length ((b :: T).drop k)
      (by rw [List.length_drop]; simp only [List.length_cons]; omega) (le_refl _)]

set_option maxHeartbeats 2000000 in
theorem toLanes_props : ∀ n : Nat, ∀ c : List Nat, c.length = 16 * n → (∀ b ∈ c, b < 256) →
    (pclmulqdq.toLanes c).length = n ∧ (∀ v ∈ pclmulqdq.toLanes c, v < 2 ^ 128) ∧
      lanesPoly (pclmulqdq.toLanes c) = msgPoly c := by
  intro n
  induction n with
  | zero =>
    intro c hlen _
    have hc : c = [] := List.length_eq_zero.mp (by omega)
    subst hc
    refine ⟨rfl, ?_, ?_⟩
    · rw [show pclmulqdq.toLanes [] = [] from rfl]
      simp
    · rw [show pclmulqdq.toLanes [] = [] from rfl]
      simp [lanesPoly, msgPoly]
  | succ n ih =>
    intro c hlen hB
    have hces : pclmulqdq.toLanes c =
        pclmulqdq.loadLane (c.take 16) :: pclmulqdq.toLanes (c.drop 16) := by
      unfold pclmulqdq.toLanes
      rw [chunksOf_eq (by norm_num) c]
      have hne : c.isEmpty = false := by
        cases c with
        | nil => simp at hlen
        | cons a T => rfl
      rw [if_neg (by simp [hne])]
      simp [List.map_cons]
    have hlen16 : (c.take 16).length = 16 := by
      rw [List.length_take]; omega
    have hlenD : (c.drop 16).length = 16 * n := by
      rw [List.length_drop]; omega
    have hBt : ∀ b ∈ c.take 16, b < 256 := fun b hb => hB b (List.take_subset _ _ hb)
    have hBd : ∀ b ∈ c.drop 16, b < 256 := fun b hb => hB b (List.drop_subset _ _ hb)
    obtain ⟨ihl, ihb, ihp⟩ := ih (c.drop 16) hlenD hBd
    have hlane_lt : pclmulqdq.loadLane (c.take 16) < 2 ^ 128 := by
      have h := loadLane_lt (c.take 16) hBt
      rw [hlen16] at h
      norm_num at h
      exact h
    refine ⟨?_, ?_, ?_⟩
    · rw [hces, List.length_cons, ihl]
    · intro v hv
      rw [hces] at hv
      rcases List.mem_cons.mp hv with rfl | hv2
      · exact hlane_lt
      · exact ihb v hv2
    · rw [hces, lanesPoly_cons, ihl, ihp]
      have hlsem : bitrev 128 (pclmulqdq.loadLane (c.take 16)) = msgPoly (c.take 16) := by
        have h := loadLane_sem (c.take 16) hBt
        rw [hlen16] at h
        norm_num at h
        exact h
      rw [hlsem]
      conv_rhs => rw [show c = c.take 16 ++ c.drop 16 from (List.take_append_drop 16 c).symm]
      rw [msgPoly_append, hlenD, show 8 * (16 * n) = 128 * n by ring]

theorem chunks128_props : ∀ m : Nat, ∀ bs : List Nat, bs.length = 128 * m →
    (∀ b ∈ bs, b < 256) →
    ((pclmulqdq.chunksOf 128 bs).map pclmulqdq.toLanes).length = m ∧
    (∀ y ∈ (pclmulqdq.chunksOf 128 bs).map pclmulqdq.toLanes,
      y.length = 8 ∧ ∀ v ∈ y, v < 2 ^ 128) ∧
    chunksLanesPoly ((pclmulqdq.chunksOf 128 bs).map pclmulqdq.toLanes) = msgPoly bs := by
  intro m
  induction m with
  | zero =>
    intro bs hlen _
    have hbs : bs = [] := List.length_eq_zero.mp (by omega)
    subst hbs
    refine ⟨rfl, ?_, ?_⟩
    · rw [show (pclmulqdq.chunksOf 128 []).map pclmulqdq.toLanes = [] from rfl]
      simp
    · rw [show (pclmulqdq.chunksOf 128 []).map pclmulqdq.toLanes = [] from rfl]
      simp [chunksLanesPoly, msgPoly]
  | succ m ih =>
    intro bs hlen hB
    have hces : (pclmulqdq.chunksOf 128 bs).map pclmulqdq.toLanes =
        pclmulqdq.toLanes (bs.take 128) ::
          (pclmulqdq.chunksOf 128 (bs.drop 128)).map pclmulqdq.toLanes := by
      rw [chunksOf_eq (by norm_num) bs]
      have hne : bs.isEmpty = false := by
        cases bs with
        | nil => simp at hlen
        | cons a T => rfl
      rw [if_neg (by simp [hne])]
      simp [List.map_cons]
    have hlen128 : (bs.take 128).length = 16 * 8 := by
      rw [List.length_take]; omega
    have hlenD : (bs.drop 128).length = 128 * m := by
      rw [List.length_drop]; omega
    have hBt : ∀ b ∈ bs.take 128, b < 256 := fun b hb => hB b (List.take_subset _ _ hb)
    have hBd : ∀ b ∈ bs.drop 128, b < 256 := fun b hb => hB b (List.drop_subset _ _ hb)
    obtain ⟨tl, tb, tp⟩ := toLanes_props 8 (bs.take 128) hlen128 hBt
    obtain ⟨ihl, ihb, ihp⟩ := ih (bs.drop 128) hlenD hBd
    refine ⟨?_, ?_, ?_⟩
    · rw [hces, List.length_cons, ihl]
    · intro y hy
      rw [hces] at hy
      rcases List.mem_cons.mp hy with rfl | hy2
      · exact ⟨tl, tb⟩
      · exact ihb y hy2
    · rw [hces, chunksLanesPoly_cons, ihl, ihp, tp]
      conv_rhs => rw [show bs = bs.take 128 ++ bs.drop 128 from (List.take_append_drop 128 bs).symm]
      rw [msgPoly_append, hlenD, show 8 * (128 * m) = 1024 * m by ring]

/-! ### Bounds for the lane primitives -/

theorem fold_16_lt (x c : Nat) : simd.fold_16 x c < 2 ^ 128 := by
  unfold simd.fold_16
  rw [poly_mul_eq_clmul, poly_mul_eq_clmul]
  apply Nat.xor_lt_two_pow
  · exact clmul_lt 64 64 (Nat.mod_lt _ (Nat.two_pow_pos 64)) (Nat.mod_lt _ (Nat.two_pow_pos 64))
  · exact clmul_lt 64 64 (Nat.mod_lt _ (Nat.two_pow_pos 64)) (Nat.mod_lt _ (Nat.two_pow_pos 64))

theorem fold_8_lt {x : Nat} (hx : x < 2 ^ 128) (c : Nat) : simd.fold_8 x c < 2 ^ 128 := by
  unfold simd.fold_8
  rw [poly_mul_eq_clmul]
  apply Nat.xor_lt_two_pow
  · exact clmul_lt 64 64 (Nat.mod_lt _ (Nat.two_pow_pos 64)) (Nat.mod_lt _ (Nat.two_pow_pos 64))
  · exact lt_of_lt_of_le (shr64_lt hx) (by norm_num)

theorem barrett_lt (x p m : Nat) : simd.barrett x p m < 2 ^ 64 := by
  unfold simd.barrett
  exact Nat.mod_lt _ (by norm_num)

/-! ### Semantics of the 128-byte fold loop -/

theorem loopStep_bounds : ∀ x y : List Nat, (∀ w ∈ y, w < 2 ^ 128) →
    ∀ v ∈ pclmulqdq.loopStep x y, v < 2 ^ 128 := by
  intro x
  induction x with
  | nil => intro y _ v hv; simp [pclmulqdq.loopStep] at hv
  | cons xi x ih =>
    intro y hy v hv
    cases y with
    | nil => simp [pclmulqdq.loopStep] at hv
    | cons yi y =>
      rw [show pclmulqdq.loopStep (xi :: x) (yi :: y) =
        (yi ^^^ simd.fold_16 xi pclmulqdq.coeff128) :: pclmulqdq.loopStep x y from rfl] at hv
      rcases List.mem_cons.mp hv with rfl | hv2
      · exact Nat.xor_lt_two_pow (hy yi (by simp)) (fold_16_lt xi _)
      · exact ih y (fun w hw => hy w (by simp [hw])) v hv2

theorem loopStep_sem : ∀ x y : List Nat, x.length = y.length → (∀ v ∈ x, v < 2 ^ 128) →
    polyMod (lanesPoly (pclmulqdq.loopStep x y)) =
      polyMod ((lanesPoly x) <<< 1024 ^^^ lanesPoly y) := by
  intro x
  induction x with
  | nil =>
    intro y hlen _
    have hy : y = [] := List.length_eq_zero.mp (by simpa using hlen.symm)
    subst hy
    simp [pclmulqdq.loopStep, lanesPoly]
  | cons xi x ih =>
    intro y hlen hx
    cases y with
    | nil =>
      simp only [List.length_cons, List.length_nil] at hlen
      omega
    | cons yi y =>
      have hlen2 : x.length = y.length := by
        simp only [List.length_cons] at hlen
        omega
      rw [show pclmulqdq.loopStep (xi :: x) (yi :: y) =
        (yi ^^^ simd.fold_16 xi pclmulqdq.coeff128) :: pclmulqdq.loopStep x y from rfl]
      rw [lanesPoly_cons, lanesPoly_cons, lanesPoly_cons]
      have hll : (pclmulqdq.loopStep x y).length = x.length := by
        show (List.zipWith _ x y).length = x.length
        rw [List.length_zipWith, hlen2, Nat.min_self]
      rw [hll, ← hlen2]
      simp only [bitrev_xor, shiftLeft_xor_distrib, polyMod_xor]
      rw [ih y hlen2 (fun v hv => hx v (by simp [hv]))]
      have hf : polyMod ((bitrev 128 (simd.fold_16 xi pclmulqdq.coeff128)) <<< (128 * x.length)) =
          polyMod ((bitrev 128 xi) <<< (1024 + 128 * x.length)) := by
        have h := shl_congr (fold16_1024 xi (hx xi (by simp))) (128 * x.length)
        rw [shiftLeft_shiftLeft] at h
        exact h
      rw [hf]
      simp only [polyMod_xor, shiftLeft_shiftLeft]
      rw [show 128 * x.length + 1024 = 1024 + 128 * x.length by ring]
      simp [Nat.xor_assoc, Nat.xor_comm, xor_left_comm]

theorem loop_sem : ∀ ys : List (List Nat), ∀ x : List Nat, x.length = 8 →
    (∀ v ∈ x, v < 2 ^ 128) → (∀ y ∈ ys, y.length = 8 ∧ ∀ v ∈ y, v < 2 ^ 128) →
    (ys.foldl pclmulqdq.loopStep x).length = 8 ∧
    (∀ v ∈ ys.foldl pclmulqdq.loopStep x, v < 2 ^ 128) ∧
    polyMod (lanesPoly (ys.foldl pclmulqdq.loopStep x)) =
      polyMod ((lanesPoly x) <<< (1024 * ys.length) ^^^ chunksLanesPoly ys) := by
  intro ys
  induction ys with
  | nil =>
    intro x hl hx _
    refine ⟨hl, hx, ?_⟩
    simp [chunksLanesPoly]
  | cons y ys ih =>
    intro x hl hx hys
    simp only [List.foldl_cons]
    obtain ⟨hy8, hyb⟩ := hys y (by simp)
    have hxl : (pclmulqdq.loopStep x y).length = 8 := by
      show (List.zipWith _ x y).length = 8
      rw [List.length_zipWith, hl, hy8]
      exact Nat.min_self 8
    have hxb : ∀ v ∈ pclmulqdq.loopStep x y, v < 2 ^ 128 := loopStep_bounds x y hyb
    obtain ⟨rl, rb, rp⟩ := ih (pclmulqdq.loopStep x y) hxl hxb (fun z hz => hys z (by simp [hz]))
    refine ⟨rl, rb, ?_⟩
    rw [rp, polyMod_xor]
    have hstep : polyMod ((lanesPoly (pclmulqdq.loopStep x y)) <<< (1024 * ys.length)) =
        polyMod (((lanesPoly x) <<< 1024 ^^^ lanesPoly y) <<< (1024 * ys.length)) :=
      shl_congr (loopStep_sem x y (by rw [hl, hy8]) hx) _
    rw [hstep, shiftLeft_xor_distrib, shiftLeft_shiftLeft, chunksLanesPoly_cons]
    rw [show 1024 + 1024 * ys.length = 1024 * (ys.length + 1) by ring]
    simp only [polyMod_xor, List.length_cons]
    simp [Nat.xor_assoc, Nat.xor_comm, xor_left_comm]

/-! ### Semantics of the tail folds and of `update_simd` -/

theorem length_eq_eight {l : List Nat} (h8 : l.length = 8) :
    ∃ a b c d e f g h, l = [a, b, c, d, e, f, g, h] := by
  rcases l with _ | ⟨a, l⟩
  · simp only [List.length_nil] at h8; omega
  rcases l with _ | ⟨b, l⟩
  · simp only [List.length_cons, List.length_nil] at h8; omega
  rcases l with _ | ⟨c, l⟩
  · simp only [List.length_cons, List.length_nil] at h8; omega
  rcases l with _ | ⟨d, l⟩
  · simp only [List.length_cons, List.length_nil] at h8; omega
  rcases l with _ | ⟨e, l⟩
  · simp only [List.length_cons, List.length_nil] at h8; omega
  rcases l with _ | ⟨f, l⟩
  · simp only [List.length_cons, List.length_nil] at h8; omega
  rcases l with _ | ⟨g, l⟩
  · simp only [List.length_cons, List.length_nil] at h8; omega
  rcases l with _ | ⟨h, l⟩
  · simp only [List.length_cons, List.length_nil] at h8; omega
  rcases l with _ | ⟨i, l⟩
  · exact ⟨a, b, c, d, e, f, g, h, rfl⟩
  · simp only [List.length_cons, List.length_nil] at h8; omega

theorem tail_sem {x0 x1 x2 x3 x4 x5 x6 x7 : Nat}
    (h0 : x0 < 2 ^ 128) (h1 : x1 < 2 ^ 128) (h2 : x2 < 2 ^ 128) (h3 : x3 < 2 ^ 128)
    (h4 : x4 < 2 ^ 128) (h5 : x5 < 2 ^ 128) (h6 : x6 < 2 ^ 128) (h7 : x7 < 2 ^ 128) :
    (([x0, x1, x2, x3, x4, x5, x6, x7].zip pclmulqdq.tailCoeffs).foldl
      (fun acc p => acc ^^^ simd.fold_16 p.1 p.2)
      ([x0, x1, x2, x3, x4, x5, x6, x7].getD 7 0)) < 2 ^ 128 ∧
    polyMod (bitrev 128 (simd.fold_8
      (([x0, x1, x2, x3, x4, x5, x6, x7].zip pclmulqdq.tailCoeffs).foldl
        (fun acc p => acc ^^^ simd.fold_16 p.1 p.2)
        ([x0, x1, x2, x3, x4, x5, x6, x7].getD 7 0))
      table.K_127)) =
      polyMod ((lanesPoly [x0, x1, x2, x3, x4, x5, x6, x7]) <<< 64) := by
  have hA : (([x0, x1, x2, x3, x4, x5, x6, x7].zip pclmulqdq.tailCoeffs).foldl
      (fun acc p => acc ^^^ simd.fold_16 p.1 p.2)
      ([x0, x1, x2, x3, x4, x5, x6, x7].getD 7 0)) =
      ((((((x7 ^^^ simd.fold_16 x0 (simd.new table.K_895 table.K_959)) ^^^
        simd.fold_16 x1 (simd.new table.K_767 table.K_831)) ^^^
        simd.fold_16 x2 (simd.new table.K_639 table.K_703)) ^^^
        simd.fold_16 x3 (simd.new table.K_511 table.K_575)) ^^^
        simd.fold_16 x4 (simd.new table.K_383 table.K_447)) ^^^
        simd.fold_16 x5 (simd.new table.K_255 table.K_319)) ^^^
        simd.fold_16 x6 (simd.new table.K_127 table.K_191) := rfl
  have hAlt : (([x0, x1, x2, x3, x4, x5, x6, x7].zip pclmulqdq.tailCoeffs).foldl
      (fun acc p => acc ^^^ simd.fold_16 p.1 p.2)
      ([x0, x1, x2, x3, x4, x5, x6, x7].getD 7 0)) < 2 ^ 128 := by
    rw [hA]
    exact Nat.xor_lt_two_pow (Nat.xor_lt_two_pow (Nat.xor_lt_two_pow (Nat.xor_lt_two_pow
      (Nat.xor_lt_two_pow (Nat.xor_lt_two_pow (Nat.xor_lt_two_pow h7 (fold_16_lt x0 _))
        (fold_16_lt x1 _)) (fold_16_lt x2 _)) (fold_16_lt x3 _)) (fold_16_lt x4 _))
      (fold_16_lt x5 _)) (fold_16_lt x6 _)
  refine ⟨hAlt, ?_⟩
  rw [fold8_sem _ hAlt, hA]
  apply shl_congr _ 64
  simp only [bitrev_xor, polyMod_xor]
  rw [fold16_896 x0 h0, fold16_768 x1 h1, fold16_640 x2 h2, fold16_512 x3 h3,
    fold16_384 x4 h4, fold16_256 x5 h5, fold16_128 x6 h6]
  rw [lanesPoly_cons, lanesPoly_cons, lanesPoly_cons, lanesPoly_cons, lanesPoly_cons,
    lanesPoly_cons, lanesPoly_cons, lanesPoly_cons]
  simp only [List.length_cons, List.length_nil]
  norm_num
  simp only [polyMod_xor]
  simp [Nat.xor_assoc, Nat.xor_comm, xor_left_comm, show lanesPoly [] = 0 from rfl, polyMod_zero]

theorem update_simd_sem {t : Nat} (ht : t < 2 ^ 64) :
    ∀ first : List Nat, first.length = 8 → (∀ v ∈ first, v < 2 ^ 128) →
    ∀ rest : List (List Nat), (∀ y ∈ rest, y.length = 8 ∧ ∀ v ∈ y, v < 2 ^ 128) →
    bitrev 64 (pclmulqdq.update_simd t first rest) =
      polyMod ((((lanesPoly first) ^^^ ((bitrev 64 t) <<< 960)) <<<
        (1024 * rest.length + 64)) ^^^ ((chunksLanesPoly rest) <<< 64)) := by
  intro first h8 hfb rest hrb
  obtain ⟨f0, f1, f2, f3, f4, f5, f6, f7, rfl⟩ := length_eq_eight h8
  have hnew : simd.new 0 t = t := by
    unfold simd.new
    rw [Nat.mod_eq_of_lt ht]
    simp
  simp only [pclmulqdq.update_simd, List.getD_cons_zero, List.set_cons_zero, hnew]
  have hx0l : ((f0 ^^^ t) :: [f1, f2, f3, f4, f5, f6, f7]).length = 8 := rfl
  have hx0b : ∀ v ∈ (f0 ^^^ t) :: [f1, f2, f3, f4, f5, f6, f7], v < 2 ^ 128 := by
    intro v hv
    rcases List.mem_cons.mp hv with rfl | hv2
    · exact Nat.xor_lt_two_pow (hfb f0 (by simp)) (lt_of_lt_of_le ht (by norm_num))
    · fin_cases hv2 <;> exact hfb _ (by simp)
  obtain ⟨zl, zb, zp⟩ := loop_sem rest _ hx0l hx0b hrb
  obtain ⟨z0, z1, z2, z3, z4, z5, z6, z7, hz⟩ := length_eq_eight zl
  rw [hz] at zb zp ⊢
  obtain ⟨hAlt, htail⟩ := tail_sem (zb z0 (by simp)) (zb z1 (by simp)) (zb z2 (by simp))
    (zb z3 (by simp)) (zb z4 (by simp)) (zb z5 (by simp)) (zb z6 (by simp)) (zb z7 (by simp))
  rw [barrett_exact _ (fold_8_lt hAlt _), htail]
  have hx0p : lanesPoly ((f0 ^^^ t) :: [f1, f2, f3, f4, f5, f6, f7]) =
      lanesPoly [f0, f1, f2, f3, f4, f5, f6, f7] ^^^ ((bitrev 64 t) <<< 960) := by
    rw [lanesPoly_cons]
    conv_rhs => rw [lanesPoly_cons]
    have hp := bitrev_pad 64 ht
    rw [show (64 : Nat) + 64 = 128 from rfl] at hp
    rw [bitrev_xor, hp]
    simp only [List.length_cons, List.length_nil]
    norm_num
    rw [shiftLeft_xor_distrib, shiftLeft_shiftLeft]
    norm_num
    simp [Nat.xor_assoc, Nat.xor_comm, xor_left_comm]
  have h1 : polyMod ((lanesPoly [z0, z1, z2, z3, z4, z5, z6, z7]) <<< 64) =
      polyMod (((lanesPoly ((f0 ^^^ t) :: [f1, f2, f3, f4, f5, f6, f7])) <<<
        (1024 * rest.length) ^^^ chunksLanesPoly rest) <<< 64) :=
    shl_congr zp 64
  rw [h1, shiftLeft_xor_distrib, shiftLeft_shiftLeft, hx0p]

/-! ### The SIMD block computes the reflected fold of its chunk bytes -/

theorem update_simd_eq_crcFold {m : Nat} {bs : List Nat} (hlen : bs.length = 128 * (m + 1))
    (hB : ∀ b ∈ bs, b < 256) {t : Nat} (ht : t < 2 ^ 64) :
    pclmulqdq.update_simd t (pclmulqdq.toLanes (bs.take 128))
      ((pclmulqdq.chunksOf 128 (bs.drop 128)).map pclmulqdq.toLanes) = crcFold t bs := by
  have hlen128 : (bs.take 128).length = 16 * 8 := by rw [List.length_take]; omega
  have hlenD : (bs.drop 128).length = 128 * m := by rw [List.length_drop]; omega
  have hBt : ∀ b ∈ bs.take 128, b < 256 := fun b hb => hB b (List.take_subset _ _ hb)
  have hBd : ∀ b ∈ bs.drop 128, b < 256 := fun b hb => hB b (List.drop_subset _ _ hb)
  obtain ⟨tl, tb, tp⟩ := toLanes_props 8 _ hlen128 hBt
  obtain ⟨cl, cb, cp⟩ := chunks128_props m _ hlenD hBd
  have hsem := update_simd_sem ht _ tl tb _ cb
  rw [tp, cp, cl] at hsem
  have hub : pclmulqdq.update_simd t (pclmulqdq.toLanes (bs.take 128))
      ((pclmulqdq.chunksOf 128 (bs.drop 128)).map pclmulqdq.toLanes) < 2 ^ 64 := by
    show simd.barrett _ _ _ < 2 ^ 64
    exact barrett_lt _ _ _
  have hcrc := crcFold_closed bs hB ht
  have hsplit : msgPoly bs = ((msgPoly (bs.take 128)) <<< (1024 * m)) ^^^ msgPoly (bs.drop 128) := by
    conv_lhs => rw [show bs = bs.take 128 ++ bs.drop 128 from (List.take_append_drop 128 bs).symm]
    rw [msgPoly_append, hlenD, show 8 * (128 * m) = 1024 * m by ring]
  have key : polyMod ((((msgPoly (bs.take 128)) ^^^ ((bitrev 64 t) <<< 960)) <<<
      (1024 * m + 64)) ^^^ ((msgPoly (bs.drop 128)) <<< 64)) =
      polyMod (((bitrev 64 t) <<< (8 * bs.length)) ^^^ ((msgPoly bs) <<< 64)) := by
    rw [hsplit, hlen, show 8 * (128 * (m + 1)) = 1024 * m + 1024 by ring]
    simp only [shiftLeft_xor_distrib, shiftLeft_shiftLeft]
    rw [show 960 + (1024 * m + 64) = 1024 * m + 1024 by ring]
    simp [Nat.xor_assoc, Nat.xor_comm, xor_left_comm]
  conv_lhs => rw [← bitrev_bitrev hub]
  rw [hsem, key, ← hcrc]

/-! ### The SIMD driver equals the scalar table update -/

theorem update_small {bs : List Nat} (hsmall : bs.length < 128) (off s : Nat) :
    pclmulqdq.update off s bs = table.update s bs := by
  simp only [pclmulqdq.update]
  have hnm : (bs.drop (min bs.length ((16 - off % 16) % 16))).length / 128 = 0 := by
    apply Nat.div_eq_of_lt
    rw [List.length_drop]
    omega
  rw [hnm]
  simp only [Nat.zero_mul, List.take_zero]
  rw [show pclmulqdq.chunksOf 128 [] = [] from rfl]
  rfl

theorem update_eq_table_update (off : Nat) {s : Nat} (hs : s < 2 ^ 64)
    (B : List Nat) (hB : ∀ b ∈ B, b < 256) :
    pclmulqdq.update off s B = table.update s B := by
  rcases Nat.eq_zero_or_pos ((B.drop (min B.length ((16 - off % 16) % 16))).length / 128) with
    hnm | hnm
  · simp only [pclmulqdq.update]
    rw [hnm]
    simp only [Nat.zero_mul, List.take_zero]
    rw [show pclmulqdq.chunksOf 128 [] = [] from rfl]
    rfl
  · set pad := (16 - off % 16) % 16 with hpad
    set ll := min B.length pad with hll
    set rest := B.drop ll with hrest
    set nm := rest.length / 128 with hnm2
    obtain ⟨m, hm⟩ : ∃ m, nm = m + 1 := ⟨nm - 1, by omega⟩
    have hmidlen : (rest.take (nm * 128)).length = 128 * (m + 1) := by
      rw [List.length_take, hnm2]
      have hle : rest.length / 128 * 128 ≤ rest.length := Nat.div_mul_le_self _ _
      rw [← hnm2, hm]
      omega
    have hBrest : ∀ b ∈ rest, b < 256 := fun b hb => hB b (List.drop_subset _ _ hb)
    have hBmid : ∀ b ∈ rest.take (nm * 128), b < 256 :=
      fun b hb => hBrest b (List.take_subset _ _ hb)
    have hBleft : ∀ b ∈ B.take ll, b < 256 := fun b hb => hB b (List.take_subset _ _ hb)
    have hBright : ∀ b ∈ rest.drop (nm * 128), b < 256 :=
      fun b hb => hBrest b (List.drop_subset _ _ hb)
    have hchunk : pclmulqdq.chunksOf 128 (rest.take (nm * 128)) =
        (rest.take (nm * 128)).take 128 :: pclmulqdq.chunksOf 128 ((rest.take (nm * 128)).drop 128) := by
      rw [chunksOf_eq (by norm_num)]
      rw [if_neg (by
        intro he
        have h0 : (rest.take (nm * 128)).length = 0 := by
          rw [List.isEmpty_iff] at he
          rw [he]
          rfl
        rw [hmidlen] at h0
        omega)]
    show (match (pclmulqdq.chunksOf 128 (rest.take (nm * 128))).map pclmulqdq.toLanes with
      | [] => table.update s B
      | first :: restChunks =>
        table.update (pclmulqdq.update_simd (table.update s (B.take ll)) first restChunks)
          (rest.drop (nm * 128))) = table.update s B
    rw [hchunk, List.map_cons]
    show table.update (pclmulqdq.update_simd (table.update s (B.take ll))
      (pclmulqdq.toLanes ((rest.take (nm * 128)).take 128))
      ((pclmulqdq.chunksOf 128 ((rest.take (nm * 128)).drop 128)).map pclmulqdq.toLanes))
      (rest.drop (nm * 128)) = table.update s B
    have hsimd := update_simd_eq_crcFold hmidlen hBmid
      (show table.update s (B.take ll) < 2 ^ 64 from by
        rw [table_update_eq_crcFold (B.take ll) hBleft s hs]
        exact crcFold_lt _ hBleft hs)
    rw [table_update_eq_crcFold (B.take ll) hBleft s hs] at hsimd
    rw [table_update_eq_crcFold (B.take ll) hBleft s hs, hsimd]
    have hfold_left : crcFold s (B.take ll) < 2 ^ 64 := crcFold_lt _ hBleft hs
    have hfold_mid : crcFold (crcFold s (B.take ll)) (rest.take (nm * 128)) < 2 ^ 64 :=
      crcFold_lt _ hBmid hfold_left
    rw [table_update_eq_crcFold _ hBright _ hfold_mid,
      table_update_eq_crcFold B hB s hs]
    have hsplit1 : B = B.take ll ++ rest := (List.take_append_drop ll B).symm
    have hsplit2 : rest = rest.take (nm * 128) ++ rest.drop (nm * 128) :=
      (List.take_append_drop (nm * 128) rest).symm
    conv_rhs => rw [hsplit1, hsplit2]
    unfold crcFold
    rw [List.foldl_append, List.foldl_append]

/-! ### The standalone x86 variant agrees with the module driver -/

theorem mod_mod_64 (n : Nat) : n % 2 ^ 64 % 2 ^ 64 = n % 2 ^ 64 :=
  Nat.mod_mod_of_dvd n dvd_rfl

theorem mm_clmul_00 (a b : Nat) :
    mm_clmulepi64_si128 a b 0x00 = clmul (a % 2 ^ 64) (b % 2 ^ 64) := by
  unfold mm_clmulepi64_si128
  rw [if_neg (by decide), if_neg (by decide)]

theorem mm_clmul_01 (a b : Nat) :
    mm_clmulepi64_si128 a b 0x01 = clmul ((a >>> 64) % 2 ^ 64) (b % 2 ^ 64) := by
  unfold mm_clmulepi64_si128
  rw [if_pos (by decide), if_neg (by decide)]

theorem mm_clmul_10 (a b : Nat) :
    mm_clmulepi64_si128 a b 0x10 = clmul (a % 2 ^ 64) ((b >>> 64) % 2 ^ 64) := by
  unfold mm_clmulepi64_si128
  rw [if_neg (by decide), if_pos (by decide)]

theorem mm_clmul_11 (a b : Nat) :
    mm_clmulepi64_si128 a b 0x11 = clmul ((a >>> 64) % 2 ^ 64) ((b >>> 64) % 2 ^ 64) := by
  unfold mm_clmulepi64_si128
  rw [if_pos (by decide), if_pos (by decide)]

theorem x86_fold_16_eq (x c : Nat) : x86_fold_16 x c = simd.fold_16 x c := by
  unfold x86_fold_16 simd.fold_16 mm_xor_si128
  rw [mm_clmul_11, mm_clmul_00, poly_mul_eq_clmul, poly_mul_eq_clmul, mod_mod_64, mod_mod_64]
  rw [clmul_comm ((x >>> 64) % 2 ^ 64), clmul_comm (x % 2 ^ 64)]
  exact Nat.xor_comm _ _

theorem v1_fold_loop_eq (x y : Nat) :
    pclmulqdq_v1.fold pclmulqdq_v1.coeff_128 x y = y ^^^ simd.fold_16 x pclmulqdq.coeff128 := by
  unfold pclmulqdq_v1.fold mm_xor_si128 simd.fold_16
  rw [mm_clmul_10, mm_clmul_01, poly_mul_eq_clmul, poly_mul_eq_clmul, mod_mod_64, mod_mod_64]
  have c1 : pclmulqdq.coeff128 % 2 ^ 64 = table.K_1087 := by decide
  have c2 : (pclmulqdq.coeff128 >>> 64) % 2 ^ 64 = table.K_1023 := by decide
  have c3 : (pclmulqdq_v1.coeff_128 >>> 64) % 2 ^ 64 = table.K_1087 := by decide
  have c4 : pclmulqdq_v1.coeff_128 % 2 ^ 64 = table.K_1023 := by decide
  rw [c1, c2, c3, c4, clmul_comm table.K_1087, clmul_comm table.K_1023]
  simp [Nat.xor_assoc, Nat.xor_comm, xor_left_comm]

theorem v1_fold_tail_eq {a b : Nat} (ha : a < 2 ^ 64) (hb : b < 2 ^ 64) (x acc : Nat) :
    pclmulqdq_v1.fold (pclmulqdq_v1.build_const a b) x acc =
      acc ^^^ simd.fold_16 x (simd.new b a) := by
  unfold pclmulqdq_v1.fold mm_xor_si128 simd.fold_16
  rw [mm_clmul_10, mm_clmul_01, poly_mul_eq_clmul, poly_mul_eq_clmul, mod_mod_64, mod_mod_64]
  rw [show pclmulqdq_v1.build_const a b = simd.new a b from rfl,
    new_mod hb, new_shr ha hb, new_mod ha, new_shr hb ha,
    Nat.mod_eq_of_lt ha, Nat.mod_eq_of_lt hb]
  rw [clmul_comm a, clmul_comm b]
  simp [Nat.xor_assoc, Nat.xor_comm, xor_left_comm]

theorem v1_fold8_eq {A : Nat} (hA : A < 2 ^ 128) :
    mm_xor_si128 (mm_clmulepi64_si128 A (pclmulqdq_v1.build_const 0 table.K_127) 0x00)
      (mm_srli_si128_8 A) = simd.fold_8 A table.K_127 := by
  unfold mm_xor_si128 mm_srli_si128_8 simd.fold_8
  rw [mm_clmul_00, poly_mul_eq_clmul]
  have hc : pclmulqdq_v1.build_const 0 table.K_127 % 2 ^ 64 = table.K_127 := by decide
  have hk : table.K_127 % 2 ^ 64 = table.K_127 := by decide
  rw [hc, hk, Nat.mod_eq_of_lt hA, clmul_comm]

theorem v1_barrett_eq (r : Nat) :
    mm_extract_epi64_1 (mm_xor_si128 (mm_xor_si128
      (mm_clmulepi64_si128 (mm_clmulepi64_si128 r (pclmulqdq_v1.build_const table.POLY table.MU) 0x00)
        (pclmulqdq_v1.build_const table.POLY table.MU) 0x10)
      (mm_slli_si128_8 (mm_clmulepi64_si128 r (pclmulqdq_v1.build_const table.POLY table.MU) 0x00)))
      r) = simd.barrett r table.POLY table.MU := by
  simp only [mm_extract_epi64_1, mm_xor_si128, mm_slli_si128_8, simd.barrett]
  rw [mm_clmul_00, mm_clmul_10, poly_mul_eq_clmul, poly_mul_eq_clmul]
  simp only [mod_mod_64]
  have hmu : pclmulqdq_v1.build_const table.POLY table.MU % 2 ^ 64 = table.MU := by decide
  have hpoly : (pclmulqdq_v1.build_const table.POLY table.MU >>> 64) % 2 ^ 64 = table.POLY := by
    decide
  rw [hmu, hpoly]
  congr 2
  simp [Nat.xor_assoc, Nat.xor_comm, xor_left_comm]

theorem v1_update_simd_eq {t : Nat} (ht : t < 2 ^ 64) :
    ∀ first : List Nat, first.length = 8 → (∀ v ∈ first, v < 2 ^ 128) →
    ∀ rest : List (List Nat), (∀ y ∈ rest, y.length = 8 ∧ ∀ v ∈ y, v < 2 ^ 128) →
    pclmulqdq_v1.update_simd t first rest = pclmulqdq.update_simd t first rest := by
  intro first h8 hfb rest hrb
  obtain ⟨f0, f1, f2, f3, f4, f5, f6, f7, rfl⟩ := length_eq_eight h8
  have hnew : simd.new 0 t = t := by
    unfold simd.new
    rw [Nat.mod_eq_of_lt ht]
    simp
  have hloop : (fun x y =>
      List.zipWith (fun xi yi => pclmulqdq_v1.fold pclmulqdq_v1.coeff_128 xi yi) x y) =
      pclmulqdq.loopStep := by
    funext x y
    unfold pclmulqdq.loopStep
    congr 1
    funext xi yi
    exact v1_fold_loop_eq xi yi
  simp only [pclmulqdq_v1.update_simd, pclmulqdq.update_simd,
    List.getD_cons_zero, List.set_cons_zero, hnew, hloop]
  rw [show mm_xor_si128 f0 (pclmulqdq_v1.build_const 0 t) = f0 ^^^ t from by
    unfold mm_xor_si128
    rw [show pclmulqdq_v1.build_const 0 t = simd.new 0 t from rfl, hnew]]
  have hx0l : ((f0 ^^^ t) :: [f1, f2, f3, f4, f5, f6, f7]).length = 8 := rfl
  have hx0b : ∀ v ∈ (f0 ^^^ t) :: [f1, f2, f3, f4, f5, f6, f7], v < 2 ^ 128 := by
    intro v hv
    rcases List.mem_cons.mp hv with rfl | hv2
    · exact Nat.xor_lt_two_pow (hfb f0 (by simp)) (lt_of_lt_of_le ht (by norm_num))
    · fin_cases hv2 <;> exact hfb _ (by simp)
  obtain ⟨zl, zb, zp⟩ := loop_sem rest _ hx0l hx0b hrb
  obtain ⟨z0, z1, z2, z3, z4, z5, z6, z7, hz⟩ := length_eq_eight zl
  rw [hz] at zb ⊢
  have htl : (([z0, z1, z2, z3, z4, z5, z6, z7].zip pclmulqdq_v1.coeffs_v1).foldl
      (fun acc p => pclmulqdq_v1.fold p.2 p.1 acc)
      ([z0, z1, z2, z3, z4, z5, z6, z7].getD 7 0)) =
      (([z0, z1, z2, z3, z4, z5, z6, z7].zip pclmulqdq.tailCoeffs).foldl
      (fun acc p => acc ^^^ simd.fold_16 p.1 p.2)
      ([z0, z1, z2, z3, z4, z5, z6, z7].getD 7 0)) := by
    show pclmulqdq_v1.fold (pclmulqdq_v1.build_const table.K_191 table.K_127) z6
      (pclmulqdq_v1.fold (pclmulqdq_v1.build_const table.K_319 table.K_255) z5
      (pclmulqdq_v1.fold (pclmulqdq_v1.build_const table.K_447 table.K_383) z4
      (pclmulqdq_v1.fold (pclmulqdq_v1.build_const table.K_575 table.K_511) z3
      (pclmulqdq_v1.fold (pclmulqdq_v1.build_const table.K_703 table.K_639) z2
      (pclmulqdq_v1.fold (pclmulqdq_v1.build_const table.K_831 table.K_767) z1
      (pclmulqdq_v1.fold (pclmulqdq_v1.build_const table.K_959 table.K_895) z0 z7)))))) = _
    rw [v1_fold_tail_eq (by decide) (by decide) z0 z7,
      v1_fold_tail_eq (by decide) (by decide) z1,
      v1_fold_tail_eq (by decide) (by decide) z2,
      v1_fold_tail_eq (by decide) (by decide) z3,
      v1_fold_tail_eq (by decide) (by decide) z4,
      v1_fold_tail_eq (by decide) (by decide) z5,
      v1_fold_tail_eq (by decide) (by decide) z6]
    rfl
  rw [htl]
  obtain ⟨hAlt, _⟩ := tail_sem (zb z0 (by simp)) (zb z1 (by simp)) (zb z2 (by simp))
    (zb z3 (by simp)) (zb z4 (by simp)) (zb z5 (by simp)) (zb z6 (by simp)) (zb z7 (by simp))
  rw [v1_fold8_eq hAlt]
  exact v1_barrett_eq _

theorem v1_update_eq_update (off : Nat) {s : Nat} (hs : s < 2 ^ 64)
    (B : List Nat) (hB : ∀ b ∈ B, b < 256) :
    pclmulqdq_v1.update off s B = pclmulqdq.update off s B := by
  rcases Nat.eq_zero_or_pos ((B.drop (min B.length ((16 - off % 16) % 16))).length / 128) with
    hnm | hnm
  · simp only [pclmulqdq_v1.update, pclmulqdq.update]
    rw [hnm]
    simp only [Nat.zero_mul, List.take_zero]
    rw [show pclmulqdq.chunksOf 128 [] = [] from rfl]
    rfl
  · simp only [pclmulqdq_v1.update, pclmulqdq.update]
    set pad := (16 - off % 16) % 16 with hpad
    set ll := min B.length pad with hll
    set rest := B.drop ll with hrest
    set nm := rest.length / 128 with hnm2
    obtain ⟨m, hm⟩ : ∃ m, nm = m + 1 := ⟨nm - 1, by omega⟩
    have hmidlen : (rest.take (nm * 128)).length = 128 * (m + 1) := by
      rw [List.length_take, hnm2]
      have hle : rest.length / 128 * 128 ≤ rest.length := Nat.div_mul_le_self _ _
      rw [← hnm2, hm]
      omega
    have hBrest : ∀ b ∈ rest, b < 256 := fun b hb => hB b (List.drop_subset _ _ hb)
    have hBmid : ∀ b ∈ rest.take (nm * 128), b < 256 :=
      fun b hb => hBrest b (List.take_subset _ _ hb)
    have hBleft : ∀ b ∈ B.take ll, b < 256 := fun b hb => hB b (List.take_subset _ _ hb)
    have hchunk : pclmulqdq.chunksOf 128 (rest.take (nm * 128)) =
        (rest.take (nm * 128)).take 128 ::
          pclmulqdq.chunksOf 128 ((rest.take (nm * 128)).drop 128) := by
      rw [chunksOf_eq (by norm_num)]
      rw [if_neg (by
        intro he
        have h0 : (rest.take (nm * 128)).length = 0 := by
          rw [List.isEmpty_iff] at he
          rw [he]
          rfl
        rw [hmidlen] at h0
        omega)]
    rw [hchunk, List.map_cons]
    show table.update (pclmulqdq_v1.update_simd (table.update s (B.take ll))
      (pclmulqdq.toLanes ((rest.take (nm * 128)).take 128))
      ((pclmulqdq.chunksOf 128 ((rest.take (nm * 128)).drop 128)).map pclmulqdq.toLanes))
      (rest.drop (nm * 128)) =
      table.update (pclmulqdq.update_simd (table.update s (B.take ll))
      (pclmulqdq.toLanes ((rest.take (nm * 128)).take 128))
      ((pclmulqdq.chunksOf 128 ((rest.take (nm * 128)).drop 128)).map pclmulqdq.toLanes))
      (rest.drop (nm * 128))
    have hts : table.update s (B.take ll) < 2 ^ 64 := by
      rw [table_update_eq_crcFold (B.take ll) hBleft s hs]
      exact crcFold_lt _ hBleft hs
    have hlen16 : ((rest.take (nm * 128)).take 128).length = 16 * 8 := by
      rw [List.length_take, hmidlen]
      omega
    have hlenD : ((rest.take (nm * 128)).drop 128).length = 128 * m := by
      rw [List.length_drop, hmidlen]
      omega
    have hBt : ∀ b ∈ (rest.take (nm * 128)).take 128, b < 256 :=
      fun b hb => hBmid b (List.take_subset _ _ hb)
    have hBd : ∀ b ∈ (rest.take (nm * 128)).drop 128, b < 256 :=
      fun b hb => hBmid b (List.drop_subset _ _ hb)
    obtain ⟨tl, tb, _⟩ := toLanes_props 8 _ hlen16 hBt
    obtain ⟨_, cb, _⟩ := chunks128_props m _ hlenD hBd
    rw [v1_update_simd_eq hts _ tl tb _ cb]

/-! ### Digest-level helpers -/

theorem get_update_eq_table (sup : Bool) (off : Nat) {s : Nat} (hs : s < 2 ^ 64)
    (B : List Nat) (hB : ∀ b ∈ B, b < 256) :
    pclmulqdq.get_update sup off s B = table.update s B := by
  cases sup
  · rfl
  · exact update_eq_table_update off hs B hB

theorem update_nil (off s : Nat) : pclmulqdq.update off s [] = s := by
  simp [pclmulqdq.update, show pclmulqdq.chunksOf 128 [] = [] from rfl,
    show table.update s [] = s from rfl]

theorem concat_acc : ∀ (ws : List (Nat × List Nat)) (A : List Nat),
    ws.foldl (fun acc p => acc ++ p.2) A = A ++ ws.foldl (fun acc p => acc ++ p.2) [] := by
  intro ws
  induction ws with
  | nil => intro A; simp
  | cons p ws ih =>
    intro A
    show List.foldl _ (A ++ p.2) ws = _
    rw [ih (A ++ p.2)]
    conv_rhs => rw [show List.foldl (fun acc p => acc ++ p.2) [] (p :: ws) =
      List.foldl (fun acc p => acc ++ p.2) ([] ++ p.2) ws from rfl]
    rw [ih ([] ++ p.2)]
    simp [List.append_assoc]

theorem concat_bytes : ∀ ws : List (Nat × List Nat), (∀ p ∈ ws, ∀ b ∈ p.2, b < 256) →
    ∀ b ∈ ws.foldl (fun acc p => acc ++ p.2) [], b < 256 := by
  intro ws
  induction ws with
  | nil => intro _ b hb; simp at hb
  | cons p ws ih =>
    intro hws b hb
    rw [show List.foldl (fun acc p => acc ++ p.2) [] (p :: ws) =
      List.foldl (fun acc p => acc ++ p.2) ([] ++ p.2) ws from rfl, concat_acc] at hb
    rcases List.mem_append.mp hb with h | h
    · exact hws p (by simp) b (by simpa using h)
    · exact ih (fun q hq => hws q (by simp [hq])) b h

theorem writes_state (sup : Bool) : ∀ ws : List (Nat × List Nat),
    (∀ p ∈ ws, ∀ b ∈ p.2, b < 256) → ∀ st : Nat, st < 2 ^ 64 →
    (ws.foldl (fun (d : Digest) p => d.write p.1 p.2)
      (⟨pclmulqdq.get_update sup, st⟩ : Digest)).state =
      crcFold st (ws.foldl (fun acc p => acc ++ p.2) []) := by
  intro ws
  induction ws with
  | nil => intro _ st _; rfl
  | cons p ws ih =>
    intro hws st hst
    show (ws.foldl (fun (d : Digest) p => d.write p.1 p.2)
      (Digest.write ⟨pclmulqdq.get_update sup, st⟩ p.1 p.2)).state = _
    have hwrite : Digest.write ⟨pclmulqdq.get_update sup, st⟩ p.1 p.2 =
        ⟨pclmulqdq.get_update sup, crcFold st p.2⟩ := by
      unfold Digest.write
      congr 1
      rw [show (Digest.mk (pclmulqdq.get_update sup) st).computer = pclmulqdq.get_update sup
          from rfl,
        show (Digest.mk (pclmulqdq.get_update sup) st).state = st from rfl,
        get_update_eq_table sup p.1 hst p.2 (hws p (by simp)),
        table_update_eq_crcFold p.2 (hws p (by simp)) st hst]
    rw [hwrite, ih (fun q hq => hws q (by simp [hq])) (crcFold st p.2)
      (crcFold_lt _ (hws p (by simp)) hst)]
    rw [show List.foldl (fun acc p => acc ++ p.2) [] (p :: ws) =
      List.foldl (fun acc p => acc ++ p.2) ([] ++ p.2) ws from rfl]
    simp only [List.nil_append]
    rw [concat_acc ws p.2]
    unfold crcFold
    rw [List.foldl_append]

theorem shl64_mod128 (a : Nat) : ((a % 2 ^ 64) <<< 64) % 2 ^ 128 = (a <<< 64) % 2 ^ 128 := by
  rw [Nat.shiftLeft_eq, Nat.shiftLeft_eq,
    show (2 : Nat) ^ 128 = 2 ^ 64 * 2 ^ 64 by norm_num]
  conv_rhs => rw [Nat.mul_mod_mul_right (2 ^ 64) a (2 ^ 64)]
  have hlt : a % 2 ^ 64 * 2 ^ 64 < 2 ^ 64 * 2 ^ 64 :=
    (Nat.mul_lt_mul_right (Nat.two_pow_pos 64)).mpr (Nat.mod_lt _ (Nat.two_pow_pos 64))
  rw [Nat.mod_eq_of_lt hlt]

/-! ### The claims -/

/-- C1: for every byte sequence and every way of feeding it to a digest
created by `Digest::new` as a sequence of `write` calls (each with its
own alignment), `sum64` returns the reference scalar CRC-64-ECMA
checksum of the concatenation of all bytes written. -/
theorem claim_C1_new_matches_reference (sup : Bool) (ws : List (Nat × List Nat))
    (hws : ∀ p ∈ ws, ∀ b ∈ p.2, b < 256) :
    (ws.foldl (fun (d : Digest) p => d.write p.1 p.2) (Digest.new sup)).sum64 =
      reference_crc64_ecma (ws.foldl (fun acc p => acc ++ p.2) []) := by
  have h := writes_state sup ws hws (2 ^ 64 - 1) (by norm_num)
  unfold Digest.sum64
  rw [show Digest.new sup = (⟨pclmulqdq.get_update sup, 2 ^ 64 - 1⟩ : Digest) from rfl, h,
    reference_eq_crcFold _ (concat_bytes ws hws)]

theorem claim_C1_witness :
    (∀ p ∈ [((0 : Nat), [49, 50]), ((7 : Nat), [51])], ∀ b ∈ p.2, b < 256) ∧
    ([((0 : Nat), [49, 50]), ((7 : Nat), [51])].foldl
      (fun (d : Digest) p => d.write p.1 p.2) (Digest.new true)).sum64 =
      reference_crc64_ecma ([((0 : Nat), [49, 50]), ((7 : Nat), [51])].foldl
        (fun acc p => acc ++ p.2) []) :=
  ⟨by decide, claim_C1_new_matches_reference true _ (by decide)⟩

/-- C2: the SIMD-dispatched path and the scalar table path agree
bit-exactly, both as installed update functions on `(state, bytes)` and
through the `Digest` interface. -/
theorem claim_C2_simd_table_agree (sup : Bool) (off : Nat) {s : Nat} (hs : s < 2 ^ 64)
    (B : List Nat) (hB : ∀ b ∈ B, b < 256) :
    pclmulqdq.update off s B = table.update s B ∧
    ((Digest.new sup).write off B).sum64 = (Digest.new_table.write off B).sum64 := by
  refine ⟨update_eq_table_update off hs B hB, ?_⟩
  show pclmulqdq.get_update sup off (2 ^ 64 - 1) B ^^^ (2 ^ 64 - 1) =
    pclmulqdq.table_update_fn off (2 ^ 64 - 1) B ^^^ (2 ^ 64 - 1)
  rw [get_update_eq_table sup off (by norm_num) B hB]
  rfl

theorem claim_C2_witness :
    (7 < 2 ^ 64 ∧ (∀ b ∈ [1, 2, 3], b < 256)) ∧
    (pclmulqdq.update 3 7 [1, 2, 3] = table.update 7 [1, 2, 3] ∧
      ((Digest.new true).write 3 [1, 2, 3]).sum64 = (Digest.new_table.write 3 [1, 2, 3]).sum64) :=
  ⟨⟨by decide, by decide⟩, claim_C2_simd_table_agree true 3 (by decide) [1, 2, 3] (by decide)⟩

/-- C3 (amended): in the SIMD update's main loop each lane is updated as
`x[i] ← y[i] ⊕ x[i].fold_16(K128)`, where the coefficient register is
`K128 = new(K_1023, K_1087)` — upper 64 bits `K_1023`, lower 64 bits
`K_1087` — not `new(K_1087, K_1023)` as the claim stated. -/
theorem claim_C3_loop_coefficient :
    pclmulqdq.coeff128 = simd.new table.K_1023 table.K_1087 ∧
    ∀ x y : List Nat, pclmulqdq.loopStep x y =
      List.zipWith (fun xi yi => yi ^^^ simd.fold_16 xi (simd.new table.K_1023 table.K_1087)) x y :=
  ⟨rfl, fun _ _ => rfl⟩

/-- C3 counterexample: with the coefficient halves as the claim states
them (`new(K_1087, K_1023)`), the SIMD update computes a different
value than the code already on a one-chunk-plus-one-chunk input. -/
theorem claim_C3_counterexample :
    pclmulqdq.update_simd 0 [1, 0, 0, 0, 0, 0, 0, 0] [[0, 0, 0, 0, 0, 0, 0, 0]] ≠
      update_simd_claimed 0 [1, 0, 0, 0, 0, 0, 0, 0] [[0, 0, 0, 0, 0, 0, 0, 0]] := by
  decide

/-- C4: every generated table entry is the bit-reversed remainder of
`reverse_bits(b) · x^(8(j+1))` modulo the generator polynomial, and the
long-division construction computes exactly that closed form. -/
theorem claim_C4_table_closed_form (j : Nat) (hj : j < 16) : ∀ b < 256,
    table.entry j b = bitrev 64 (polyMod ((bitrev 64 b) <<< (8 * (j + 1)))) := by
  intro b hb
  unfold table.entry
  have hb64 : (bitrev 8 b) <<< 56 = bitrev 64 b := by
    have h := bitrev_pad 56 (show b < 2 ^ 8 from hb)
    norm_num at h
    exact h.symm
  rw [Dn_polyMod (8 * j + 8) _ (brev8_shl56_lt b), hb64, show 8 * j + 8 = 8 * (j + 1) by ring]

theorem claim_C4_witness :
    3 < 16 ∧ 5 < 256 ∧
    table.entry 3 5 = bitrev 64 (polyMod ((bitrev 64 5) <<< (8 * (3 + 1)))) :=
  ⟨by decide, by decide, claim_C4_table_closed_form 3 (by decide) 5 (by decide)⟩

/-- C5: `barrett` computes the spec's formula — with
`t = clmul(x.low, mu).low`, it returns
`(clmul(t, poly) ⊕ (t << 64) ⊕ x).high` — and on the given concrete
lane and constants it returns `0x5E4D0253942AD95D`. -/
theorem claim_C5_barrett_formula :
    (∀ x < 2 ^ 128, ∀ p < 2 ^ 64, ∀ mu < 2 ^ 64,
      simd.barrett x p mu = barrett_spec x p mu) ∧
    simd.barrett (simd.new 0x2606E58234069BAE 0x76CC11050FEF6D68)
      0x435D0F7919A61445 0x58176272F8FAB8D5 = 0x5E4D0253942AD95D := by
  constructor
  · intro x hx p hp mu hmu
    simp only [simd.barrett, barrett_spec]
    rw [poly_mul_eq_clmul, poly_mul_eq_clmul]
    simp only [mod_mod_64]
    conv_rhs => rw [shl64_mod128]
    have hin : clmul ((clmul (x % 2 ^ 64) mu) % 2 ^ 64) p ^^^
        ((clmul (x % 2 ^ 64) mu) <<< 64) % 2 ^ 128 ^^^ x < 2 ^ 128 := by
      apply Nat.xor_lt_two_pow _ hx
      apply Nat.xor_lt_two_pow
      · exact clmul_lt 64 64 (Nat.mod_lt _ (Nat.two_pow_pos 64)) hp
      · exact Nat.mod_lt _ (by norm_num)
    conv_rhs => rw [Nat.mod_eq_of_lt hin]
    congr 2
    simp [Nat.xor_assoc, Nat.xor_comm, xor_left_comm]
  · decide

theorem claim_C5_witness :
    (1 < 2 ^ 128 ∧ 3 < 2 ^ 64 ∧ 5 < 2 ^ 64) ∧
    simd.barrett 1 3 5 = barrett_spec 1 3 5 :=
  ⟨⟨by decide, by decide, by decide⟩,
    claim_C5_barrett_formula.1 1 (by decide) 3 (by decide) 5 (by decide)⟩

/-- C6: writing a byte sequence in two pieces (at any alignments) gives
the same result as writing it at once: the installed update function
satisfies `update(update(s, L), R) = update(s, L ++ R)`. -/
theorem claim_C6_concatenation (off offL offR : Nat) {s : Nat} (hs : s < 2 ^ 64)
    (L R : List Nat) (hL : ∀ b ∈ L, b < 256) (hR : ∀ b ∈ R, b < 256) :
    pclmulqdq.update offR (pclmulqdq.update offL s L) R = pclmulqdq.update off s (L ++ R) := by
  have hLR : ∀ b ∈ L ++ R, b < 256 := by
    intro b hb
    rcases List.mem_append.mp hb with h | h
    · exact hL b h
    · exact hR b h
  rw [update_eq_table_update offL hs L hL, table_update_eq_crcFold L hL s hs]
  have hcf : crcFold s L < 2 ^ 64 := crcFold_lt _ hL hs
  rw [update_eq_table_update offR hcf R hR, table_update_eq_crcFold R hR _ hcf,
    update_eq_table_update off hs (L ++ R) hLR, table_update_eq_crcFold (L ++ R) hLR s hs]
  unfold crcFold
  rw [List.foldl_append]

theorem claim_C6_witness :
    (9 < 2 ^ 64 ∧ (∀ b ∈ [1, 2], b < 256) ∧ (∀ b ∈ [3], b < 256)) ∧
    pclmulqdq.update 1 (pclmulqdq.update 2 9 [1, 2]) [3] = pclmulqdq.update 0 9 ([1, 2] ++ [3]) :=
  ⟨⟨by decide, by decide, by decide⟩,
    claim_C6_concatenation 0 2 1 (by decide) [1, 2] [3] (by decide) (by decide)⟩

/-- C7: the dispatcher is total — it returns the SIMD update function
exactly when the feature probe succeeds and the scalar table update
function otherwise, and `Digest::new` installs its result directly. -/
theorem claim_C7_dispatch_total :
    pclmulqdq.get_update true = pclmulqdq.update ∧
    pclmulqdq.get_update false = pclmulqdq.table_update_fn ∧
    ∀ sup : Bool, (Digest.new sup).computer = pclmulqdq.get_update sup :=
  ⟨rfl, rfl, fun _ => rfl⟩

/-- C8: writing the nine ASCII bytes `"123456789"` to a fresh digest —
created by `Digest::new` (either probe outcome, any alignment) or by
`Digest::new_table` — yields the standard check value
`0x995DC9BBDF1939FA`. -/
theorem claim_C8_check_value (sup : Bool) (off : Nat) :
    ((Digest.new sup).write off checkBytes).sum64 = 0x995DC9BBDF1939FA ∧
    (Digest.new_table.write off checkBytes).sum64 = 0x995DC9BBDF1939FA := by
  have htab : table.update (2 ^ 64 - 1) checkBytes ^^^ (2 ^ 64 - 1) = 0x995DC9BBDF1939FA := by
    decide
  constructor
  · show pclmulqdq.get_update sup off (2 ^ 64 - 1) checkBytes ^^^ (2 ^ 64 - 1) = _
    rw [get_update_eq_table sup off (by norm_num) checkBytes (by decide)]
    exact htab
  · exact htab

/-- C9: the standalone x86 driver (fold selectors `0x10`/`0x01`,
coefficients `build_const(K_high, K_low)`) computes the same update
function as the module driver (fold selectors `0x11`/`0x00`,
coefficients with the halves swapped), lane for lane and byte for
byte. -/
theorem claim_C9_variants_agree :
    (∀ x c : Nat, x86_fold_16 x c = simd.fold_16 x c) ∧
    ∀ off : Nat, ∀ s < 2 ^ 64, ∀ B : List Nat, (∀ b ∈ B, b < 256) →
      pclmulqdq_v1.update off s B = pclmulqdq.update off s B :=
  ⟨x86_fold_16_eq, fun off s hs B hB => v1_update_eq_update off hs B hB⟩

theorem claim_C9_witness :
    (7 < 2 ^ 64 ∧ (∀ b ∈ [1, 2], b < 256)) ∧
    pclmulqdq_v1.update 5 7 [1, 2] = pclmulqdq.update 5 7 [1, 2] :=
  ⟨⟨by decide, by decide⟩, claim_C9_variants_agree.2 5 7 (by decide) [1, 2] (by decide)⟩

/-- C10: writing the empty slice is the identity: both installed update
functions return the state unchanged on zero bytes, so `write(&[])`
never changes a digest's state. -/
theorem claim_C10_empty_write :
    ∀ (sup : Bool) (off s : Nat),
    pclmulqdq.update off s [] = s ∧ pclmulqdq.table_update_fn off s [] = s ∧
    pclmulqdq.get_update sup off s [] = s ∧
    ∀ d : Digest, d.computer = pclmulqdq.get_update sup → (d.write off []).state = d.state := by
  intro sup off s
  refine ⟨update_nil off s, rfl, ?_, ?_⟩
  · cases sup
    · rfl
    · exact update_nil off s
  · intro d hd
    show d.computer off d.state [] = d.state
    rw [hd]
    cases sup
    · rfl
    · exact update_nil off d.state

theorem claim_C10_witness :
    ({ computer := pclmulqdq.get_update true, state := 9 } : Digest).computer =
      pclmulqdq.get_update true ∧
    (Digest.write { computer := pclmulqdq.get_update true, state := 9 } 3 []).state = 9 :=
  ⟨rfl, (claim_C10_empty_write true 3 9).2.2.2 _ rfl⟩
